import Mathlib

/-
Verification of the `typical` constraint-based type-inference engine.

The development shallowly embeds the Rust sources:
  * `src/graph.rs` — the adjacency `Graph` with `mut_add_node`,
    `mut_add_directed_edge` and `upper_bounds`;
  * `src/lib.rs` — the `TypeChecker` (`new_val`, `new_use`, `var`, `flow`)
    together with the `LiteralTypeSystem` lattice used by its tests.
`lib.rs` drives a reachability graph (`graph::Graph<EntityId>` with
`add_node_mut` / `add_edge_mut`) whose module is not part of the sources at
hand; that component is modelled from the specification (its worklist
transitive-closure algorithm is spelled out there in full) and is named
`ReachabilityGraph` below, following the specification's name for it.

Node identifiers are dense natural numbers, exactly as in the sources.
-/

namespace Typical

/-! ### The adjacency graph of `src/graph.rs`

`Graph<N, E>` instantiated at the edge type `(NodeId, NodeId)` (the only
`Edge` instance provided by the source).  `nodes` and `edges` are the two
parallel vectors; `mut_add_directed_edge` pushes the edge `(a, b)` onto the
edge list of `b` and then onto the edge list of `a`. -/

structure Graph (N : Type) where
  nodes : List N
  edges : List (List (Nat × Nat))

namespace Graph

def new : Graph N := ⟨[], []⟩

def mut_add_node (g : Graph N) (n : N) : Nat × Graph N :=
  (g.nodes.length, ⟨g.nodes ++ [n], g.edges ++ [[]]⟩)

def mut_add_directed_edge (g : Graph N) (a b : Nat) : (Nat × Nat) × Graph N :=
  let a_to_b := (a, b)
  let edges1 := g.edges.set b ((g.edges.getD b []) ++ [a_to_b])
  let edges2 := edges1.set a ((edges1.getD a []) ++ [a_to_b])
  (a_to_b, { g with edges := edges2 })

/-- The destinations of the edges recorded at `eid` whose source is `eid`,
in the order they were recorded (the list `upper_bounds` builds before its
emptiness test). -/
def outDestinations (g : Graph N) (eid : Nat) : List Nat :=
  (g.edges.getD eid []).filterMap fun e => if e.1 = eid then some e.2 else none

def upper_bounds (g : Graph N) (eid : Nat) : Option (List Nat) :=
  let edges := outDestinations g eid
  if edges.isEmpty then none else some edges

end Graph

/-! ### The reachability graph

`lib.rs` drives `graph::Graph<EntityId>` through `add_node_mut` and
`add_edge_mut`; that module is not among the sources at hand, so it is
modelled from the specification here. -/

/-- Modelled from the spec: the insertion operation of `OrderedSet` — "adds
v if absent"; iteration order is first-insertion order, so the set is a
duplicate-free list extended at the end. -/
def osInsert (s : List Nat) (v : Nat) : List Nat :=
  if v ∈ s then s else s ++ [v]

/-- Modelled from the spec: the `ReachabilityGraph` behind `lib.rs`'s
`graph::Graph<EntityId>` (absent from the sources at hand) — "two parallel
arrays indexed by NodeId — `upstream[n]` (OrderedSet of nodes with an edge
into n) and `downstream[n]`". -/
structure ReachabilityGraph where
  upstream : List (List Nat)
  downstream : List (List Nat)
deriving DecidableEq

namespace ReachabilityGraph

def empty : ReachabilityGraph := ⟨[], []⟩

def numNodes (g : ReachabilityGraph) : Nat := g.downstream.length

/-- `downstream[x]`, reading an absent index as the empty set. -/
def down (g : ReachabilityGraph) (x : Nat) : List Nat := g.downstream.getD x []

/-- `upstream[x]`, reading an absent index as the empty set. -/
def up (g : ReachabilityGraph) (x : Nat) : List Nat := g.upstream.getD x []

/-- Modelled from the spec: `add_node() -> NodeId` "appends an empty
upstream/downstream set pair; returns the new identifier, always
`count_before`". -/
def add_node_mut (g : ReachabilityGraph) : Nat × ReachabilityGraph :=
  (g.downstream.length, ⟨g.upstream ++ [[]], g.downstream ++ [[]]⟩)

/-- Modelled from the spec: recording an accepted pair `(x, y)` — "add `y`
to `downstream[x]` and `x` to `upstream[y]`". -/
def recordPair (g : ReachabilityGraph) (x y : Nat) : ReachabilityGraph :=
  ⟨g.upstream.set y (osInsert (g.up y) x),
   g.downstream.set x (osInsert (g.down x) y)⟩

/-- Modelled from the spec: the worklist body of `add_edge` — "Pop a
candidate pair `(x, y)`; if `y` is already in `downstream[x]`, discard it
(already known, not new) and continue; otherwise record `(x, y)` as newly
discovered, add `y` to `downstream[x]` and `x` to `upstream[y]`, then push
every `(u, y)` for `u` in `upstream[x]` (closure leftward) and every
`(x, v)` for `v` in `downstream[y]` (closure rightward)."  The Rust loop
needs no fuel; the embedding consumes one fuel unit per pop and answers
`none` only when the fuel runs out. -/
def closureLoop : Nat → ReachabilityGraph → List (Nat × Nat) → List (Nat × Nat) →
    Option (List (Nat × Nat) × ReachabilityGraph)
  | 0, _, _, _ => none
  | _ + 1, g, [], acc => some (acc, g)
  | fuel + 1, g, (x, y) :: wl, acc =>
      if y ∈ g.down x then
        closureLoop fuel g wl acc
      else
        let g' := recordPair g x y
        let pushes := (g'.up x).map (fun u => (u, y)) ++ (g'.down y).map (fun v => (x, v))
        closureLoop fuel g' (pushes ++ wl) (acc ++ [(x, y)])

/-- Modelled from the spec: fuel sufficient for `add_edge` on well-formed
graphs, following the spec's termination argument — every accepted pair
strictly enlarges the closure (at most `n²` accepts, each pushing at most
`2n` pairs), every discard shrinks the worklist. -/
def fuelFor (g : ReachabilityGraph) : Nat :=
  (2 * g.numNodes + 2) * (g.numNodes * g.numNodes + 1) + 2

/-- Modelled from the spec: `add_edge(a, b) -> sequence of (NodeId, NodeId)`
"Maintains the closure invariant incrementally using a worklist seeded with
`(a, b)`", returning "the complete list of newly implied edges, in
discovery order". -/
def add_edge_mut (g : ReachabilityGraph) (a b : Nat) :
    Option (List (Nat × Nat) × ReachabilityGraph) :=
  closureLoop (fuelFor g) g [(a, b)] []

/-- Well-formedness of a reachability-graph state: parallel arrays of equal
length, duplicate-free in-range adjacency sets, and `upstream` the exact
mirror of `downstream`. -/
structure Wf (g : ReachabilityGraph) : Prop where
  lens : g.upstream.length = g.downstream.length
  down_nodup : ∀ x, (g.down x).Nodup
  up_nodup : ∀ x, (g.up x).Nodup
  down_lt : ∀ x y, y ∈ g.down x → x < g.numNodes ∧ y < g.numNodes
  mirror : ∀ x y, y ∈ g.down x ↔ x ∈ g.up y

/-- The downstream sets, seen as a relation closed under composition. -/
def Closed (g : ReachabilityGraph) : Prop :=
  ∀ x y z, y ∈ g.down x → z ∈ g.down y → z ∈ g.down x

end ReachabilityGraph

/-! ### Graph-building operation sequences

"Graphs built purely from `add_node` and `add_edge` calls" are exactly the
results of running a list of these operations from the empty graph. -/

inductive GOp
  | addNode
  | addEdge (a b : Nat)
deriving DecidableEq

def runGOps : List GOp → ReachabilityGraph → Option ReachabilityGraph
  | [], g => some g
  | GOp.addNode :: rest, g => runGOps rest (g.add_node_mut).2
  | GOp.addEdge a b :: rest, g =>
      match g.add_edge_mut a b with
      | none => none
      | some (_, g') => runGOps rest g'

def buildGraph (ops : List GOp) : Option ReachabilityGraph :=
  runGOps ops ReachabilityGraph.empty

/-- The operation sequence only ever adds edges between existing nodes
(the caller contract: handles are only ever obtained from the store). -/
def wfOps : List GOp → Nat → Bool
  | [], _ => true
  | GOp.addNode :: rest, n => wfOps rest (n + 1)
  | GOp.addEdge a b :: rest, n => decide (a < n) && decide (b < n) && wfOps rest n

/-- The edges explicitly requested by a sequence of operations. -/
def baseEdges : List GOp → List (Nat × Nat)
  | [] => []
  | GOp.addNode :: rest => baseEdges rest
  | GOp.addEdge a b :: rest => (a, b) :: baseEdges rest

/-! ### The type checker of `src/lib.rs`

`TypeChecker<V, U, AT>` holds the reachability graph `r` and the parallel
payload vector `types`; `AT::meet` is an associated function of the
lattice, modelled as an explicit function argument (the
`abstract_type_mapper` field carries no data that `flow` reads). -/

inductive TypeError
  | Converge
deriving DecidableEq

/-- The `Value(usize)` handle type. -/
structure Value where
  id : Nat
deriving DecidableEq

/-- The `Use(usize)` handle type. -/
structure Use where
  id : Nat
deriving DecidableEq

inductive TypeNode (V U : Type)
  | Var
  | Value (v : V)
  | Use (u : U)
deriving DecidableEq

structure TypeChecker (V U : Type) where
  r : ReachabilityGraph
  types : List (TypeNode V U)
deriving DecidableEq

namespace TypeChecker

variable {V U E : Type}

def new : TypeChecker V U := ⟨ReachabilityGraph.empty, []⟩

def new_val (tc : TypeChecker V U) (val_type : V) : Value × TypeChecker V U :=
  let (i, r') := tc.r.add_node_mut
  (⟨i⟩, { r := r', types := tc.types ++ [TypeNode.Value val_type] })

def new_use (tc : TypeChecker V U) (constraint : U) : Use × TypeChecker V U :=
  let (i, r') := tc.r.add_node_mut
  (⟨i⟩, { r := r', types := tc.types ++ [TypeNode.Use constraint] })

def var (tc : TypeChecker V U) : (Value × Use) × TypeChecker V U :=
  let (i, r') := tc.r.add_node_mut
  ((⟨i⟩, ⟨i⟩), { r := r', types := tc.types ++ [TypeNode.Var] })

/-- The inner `while let Some((lhs, rhs)) = type_pairs_to_check.pop()` loop
of `flow`: the pairs are handed over already in pop (reverse-discovery)
order; only a `Value`/`Use` tag combination invokes `meet`; an error aborts
at once; the assertions returned by the successful `meet` calls are
accumulated in the order `pending_edges.extend` receives them. -/
def checkPairs (types : List (TypeNode V U))
    (meet : V → U → Except E (List (Value × Use))) :
    List (Nat × Nat) → Except E (List (Value × Use))
  | [] => Except.ok []
  | (lhs, rhs) :: rest =>
      match types.getD lhs TypeNode.Var, types.getD rhs TypeNode.Var with
      | TypeNode.Value lhs_head, TypeNode.Use rhs_head =>
          match meet lhs_head rhs_head with
          | Except.error e => Except.error e
          | Except.ok new_edges =>
              match checkPairs types meet rest with
              | Except.error e => Except.error e
              | Except.ok later => Except.ok (new_edges ++ later)
      | _, _ => checkPairs types meet rest

/-- The outer `while let Some((lhs, rhs)) = pending_edges.pop()` loop of
`flow`.  `pending` is the pending-assertion stack with its top at the head
(Rust pops from the back of the `Vec`, so `extend`ed edges are prepended in
reverse).  The result carries the graph as mutated so far — on a `meet`
error exactly the state at the moment of the error, nothing rolled back.
Fuel only models the possible divergence of the Rust loop under an
unboundedly generative lattice: `none` means out of fuel. -/
def flowLoop (types : List (TypeNode V U))
    (meet : V → U → Except E (List (Value × Use))) :
    Nat → ReachabilityGraph → List (Value × Use) →
    Option (Option E × ReachabilityGraph)
  | 0, _, _ => none
  | _ + 1, g, [] => some (none, g)
  | fuel + 1, g, (lhs, rhs) :: pending =>
      match g.add_edge_mut lhs.id rhs.id with
      | none => none
      | some (new_pairs, g') =>
          match checkPairs types meet new_pairs.reverse with
          | Except.error e => some (some e, g')
          | Except.ok new_edges => flowLoop types meet fuel g' (new_edges.reverse ++ pending)

def flow (tc : TypeChecker V U) (meet : V → U → Except E (List (Value × Use)))
    (fuel : Nat) (lhs : Value) (rhs : Use) :
    Option (Option E × TypeChecker V U) :=
  (flowLoop tc.types meet fuel tc.r [(lhs, rhs)]).map
    (fun res => (res.1, { tc with r := res.2 }))

end TypeChecker

/-! ### The literal type system of `src/lib.rs`'s tests -/

inductive AbstractTypeValue
  | VBool
  | VInteger
  | VFloat
  | VString
deriving DecidableEq

inductive AbstractTypeUse
  | UBool
  | UInteger
  | UFloat
  | UString
deriving DecidableEq

def LiteralTypeSystem.meet :
    AbstractTypeValue → AbstractTypeUse → Except TypeError (List (Value × Use))
  | AbstractTypeValue.VBool, AbstractTypeUse.UBool => Except.ok []
  | AbstractTypeValue.VInteger, AbstractTypeUse.UInteger => Except.ok []
  | AbstractTypeValue.VFloat, AbstractTypeUse.UFloat => Except.ok []
  | AbstractTypeValue.VString, AbstractTypeUse.UString => Except.ok []
  | _, _ => Except.error TypeError.Converge

/-! ### Whole sessions against the public `TypeChecker` interface -/

inductive TCOp (V U : Type)
  | newVal (v : V)
  | newUse (u : U)
  | var
  | flow (fuel : Nat) (lhs : Value) (rhs : Use)

def runTCOp {V U E : Type} (meet : V → U → Except E (List (Value × Use)))
    (tc : TypeChecker V U) : TCOp V U → Option (TypeChecker V U)
  | TCOp.newVal v => some (tc.new_val v).2
  | TCOp.newUse u => some (tc.new_use u).2
  | TCOp.var => some (tc.var).2
  | TCOp.flow fuel lhs rhs => (tc.flow meet fuel lhs rhs).map Prod.snd

/-- A whole session: the sequence of node-creation and flow calls, run in
order, recording each flow call's outcome (`none` for success, `some e` for
a surfaced lattice error) next to the final checker state. -/
def runSessionTrace {V U E : Type} (meet : V → U → Except E (List (Value × Use))) :
    List (TCOp V U) → TypeChecker V U → Option (List (Option E) × TypeChecker V U)
  | [], tc => some ([], tc)
  | TCOp.newVal v :: rest, tc => runSessionTrace meet rest (tc.new_val v).2
  | TCOp.newUse u :: rest, tc => runSessionTrace meet rest (tc.new_use u).2
  | TCOp.var :: rest, tc => runSessionTrace meet rest (tc.var).2
  | TCOp.flow fuel lhs rhs :: rest, tc =>
      match tc.flow meet fuel lhs rhs with
      | none => none
      | some (e, tc') =>
          match runSessionTrace meet rest tc' with
          | none => none
          | some (tr, tcf) => some (e :: tr, tcf)

/-- The successful-iteration reachability relation of `flow`'s outer loop:
`FlowSteps types meet gf pf g p` holds when the loop, run from the state
with graph `g` and pending stack `p`, is at graph `gf` and pending stack
`pf` after zero or more successful iterations — each step mirroring the
`Except.ok` branch of `flowLoop` exactly (edge inserted, implied pairs
checked, the meets' new assertions pushed onto the stack). -/
inductive FlowSteps {V U E : Type} (types : List (TypeNode V U))
    (meet : V → U → Except E (List (Value × Use)))
    (gf : ReachabilityGraph) (pf : List (Value × Use)) :
    ReachabilityGraph → List (Value × Use) → Prop
  | refl : FlowSteps types meet gf pf gf pf
  | step {g g1 : ReachabilityGraph} {lhs : Value} {rhs : Use}
      {pending : List (Value × Use)} {pairs : List (Nat × Nat)}
      {new_edges : List (Value × Use)} :
      g.add_edge_mut lhs.id rhs.id = some (pairs, g1) →
      TypeChecker.checkPairs types meet pairs.reverse = Except.ok new_edges →
      FlowSteps types meet gf pf g1 (new_edges.reverse ++ pending) →
      FlowSteps types meet gf pf g ((lhs, rhs) :: pending)

/-- A test lattice whose Bool-into-Bool meet cascades two further
assertions and whose every other combination fails: it drives a `flow`
call into a meet failure on the second outer iteration, with another
cascaded assertion still queued at the moment of the error. -/
def cascadeMeet :
    AbstractTypeValue → AbstractTypeUse → Except TypeError (List (Value × Use))
  | AbstractTypeValue.VBool, AbstractTypeUse.UBool =>
      Except.ok [(⟨0⟩, ⟨1⟩), (⟨2⟩, ⟨3⟩)]
  | _, _ => Except.error TypeError.Converge

/-! ### List helpers -/

theorem getD_set_self (l : List α) (i : Nat) (v d : α) (h : i < l.length) :
    (l.set i v).getD i d = v := by
  simp [List.getD_eq_getElem?_getD, List.getElem?_set_self', List.getElem?_eq_getElem h]

theorem getD_set_ne (l : List α) (i j : Nat) (v d : α) (h : i ≠ j) :
    (l.set i v).getD j d = l.getD j d := by
  simp [List.getD_eq_getElem?_getD, List.getElem?_set_ne h]

theorem getD_append_default (l : List α) (d : α) (i : Nat) :
    (l ++ [d]).getD i d = l.getD i d := by
  rw [List.getD_eq_getElem?_getD, List.getD_eq_getElem?_getD, List.getElem?_append]
  split
  · rfl
  · rename_i h
    rw [List.getElem?_eq_none (le_of_not_lt h)]
    rcases Nat.lt_trichotomy (i - l.length) 0 with h' | h' | h'
    · omega
    · simp [h']
    · have hnone : ([d] : List α)[i - l.length]? = none :=
        List.getElem?_eq_none (by simp; omega)
      simp [hnone]

namespace ReachabilityGraph

theorem mem_osInsert {s : List Nat} {a v : Nat} : a ∈ osInsert s v ↔ a ∈ s ∨ a = v := by
  unfold osInsert
  split
  · rename_i h
    constructor
    · exact Or.inl
    · rintro (ha | rfl) <;> [exact ha; exact h]
  · simp

theorem osInsert_of_not_mem {s : List Nat} {v : Nat} (h : v ∉ s) :
    osInsert s v = s ++ [v] := by
  simp [osInsert, h]

theorem osInsert_nodup {s : List Nat} {v : Nat} (h : s.Nodup) : (osInsert s v).Nodup := by
  unfold osInsert
  split
  · exact h
  · rename_i hv
    simpa [List.nodup_append, h] using hv

theorem numNodes_recordPair (g : ReachabilityGraph) (x y : Nat) :
    (g.recordPair x y).numNodes = g.numNodes := by
  simp [recordPair, numNodes]

theorem upLen_recordPair (g : ReachabilityGraph) (x y : Nat) :
    (g.recordPair x y).upstream.length = g.upstream.length := by
  simp [recordPair]

theorem down_recordPair_self {g : ReachabilityGraph} {x : Nat} (y : Nat)
    (h : x < g.numNodes) : (g.recordPair x y).down x = osInsert (g.down x) y :=
  getD_set_self _ _ _ _ h

theorem down_recordPair_ne {g : ReachabilityGraph} {x i : Nat} (y : Nat) (h : i ≠ x) :
    (g.recordPair x y).down i = g.down i :=
  getD_set_ne _ _ _ _ _ (Ne.symm h)

theorem up_recordPair_self {g : ReachabilityGraph} (x : Nat) {y : Nat}
    (h : y < g.upstream.length) : (g.recordPair x y).up y = osInsert (g.up y) x :=
  getD_set_self _ _ _ _ h

theorem up_recordPair_ne {g : ReachabilityGraph} (x : Nat) {y i : Nat} (h : i ≠ y) :
    (g.recordPair x y).up i = g.up i :=
  getD_set_ne _ _ _ _ _ (Ne.symm h)

theorem mem_down_recordPair {g : ReachabilityGraph} {x y u v : Nat}
    (hx : x < g.numNodes) :
    v ∈ (g.recordPair x y).down u ↔ (v ∈ g.down u ∨ (u = x ∧ v = y)) := by
  by_cases hu : u = x
  · subst hu
    rw [down_recordPair_self y hx, mem_osInsert]
    simp
  · rw [down_recordPair_ne y hu]
    simp [hu]

theorem mem_up_recordPair {g : ReachabilityGraph} {x y u v : Nat}
    (hy : y < g.upstream.length) :
    u ∈ (g.recordPair x y).up v ↔ (u ∈ g.up v ∨ (v = y ∧ u = x)) := by
  by_cases hv : v = y
  · subst hv
    rw [up_recordPair_self x hy, mem_osInsert]
    simp
  · rw [up_recordPair_ne x hv]
    simp [hv]

theorem wf_recordPair {g : ReachabilityGraph} {x y : Nat} (hwf : Wf g)
    (hx : x < g.numNodes) (hy : y < g.numNodes) (hnew : y ∉ g.down x) :
    Wf (g.recordPair x y) := by
  have hy' : y < g.upstream.length := by rw [hwf.lens]; exact hy
  refine ⟨?_, ?_, ?_, ?_, ?_⟩
  · simp [recordPair, hwf.lens]
  · intro i
    by_cases hi : i = x
    · rw [hi, down_recordPair_self y hx]
      exact osInsert_nodup (hwf.down_nodup x)
    · rw [down_recordPair_ne y hi]
      exact hwf.down_nodup i
  · intro i
    by_cases hi : i = y
    · rw [hi, up_recordPair_self x hy']
      exact osInsert_nodup (hwf.up_nodup y)
    · rw [up_recordPair_ne x hi]
      exact hwf.up_nodup i
  · intro u v hv
    rw [numNodes_recordPair]
    rcases (mem_down_recordPair hx).mp hv with h | ⟨rfl, rfl⟩
    · exact hwf.down_lt u v h
    · exact ⟨hx, hy⟩
  · intro u v
    rw [mem_down_recordPair hx, mem_up_recordPair hy', hwf.mirror u v]
    tauto

/-- Loop invariants of `closureLoop` that do not mention the closure: the
final state is well-formed with unchanged node count, downstream sets only
grow, every worklist pair ends up recorded, and the accepted output is
exactly the set of pairs recorded during the run, each exactly once. -/
theorem closureLoop_main :
    ∀ (fuel : Nat) (g : ReachabilityGraph) (wl acc out : List (Nat × Nat))
      (gf : ReachabilityGraph),
      closureLoop fuel g wl acc = some (out, gf) → Wf g →
      (∀ p ∈ wl, p.1 < g.numNodes ∧ p.2 < g.numNodes) →
      Wf gf ∧ gf.numNodes = g.numNodes ∧
        gf.upstream.length = g.upstream.length ∧
        (∀ x y, y ∈ g.down x → y ∈ gf.down x) ∧
        (∀ p ∈ wl, p.2 ∈ gf.down p.1) ∧
        ∃ news, out = acc ++ news ∧ news.Nodup ∧
          ∀ p : Nat × Nat, p ∈ news ↔ (p.2 ∈ gf.down p.1 ∧ p.2 ∉ g.down p.1) := by
  intro fuel
  induction fuel with
  | zero =>
      intro g wl acc out gf h _ _
      simp [closureLoop] at h
  | succ n ih =>
      intro g wl acc out gf h hwf hb
      cases wl with
      | nil =>
          simp only [closureLoop, Option.some.injEq, Prod.mk.injEq] at h
          obtain ⟨rfl, rfl⟩ := h
          exact ⟨hwf, rfl, rfl, fun _ _ hy => hy, by simp,
            [], (List.append_nil acc).symm, List.nodup_nil, fun p => by simp⟩
      | cons p wl' =>
          obtain ⟨x, y⟩ := p
          have hx : x < g.numNodes := (hb (x, y) (List.mem_cons_self _ _)).1
          have hy : y < g.numNodes := (hb (x, y) (List.mem_cons_self _ _)).2
          have hb' : ∀ p ∈ wl', p.1 < g.numNodes ∧ p.2 < g.numNodes :=
            fun p hp => hb p (List.mem_cons_of_mem _ hp)
          simp only [closureLoop] at h
          by_cases hmem : y ∈ g.down x
          · rw [if_pos hmem] at h
            obtain ⟨W, Nn, Ul, Mono, WlF, news, hout, hnd, hchar⟩ :=
              ih g wl' acc out gf h hwf hb'
            refine ⟨W, Nn, Ul, Mono, ?_, news, hout, hnd, hchar⟩
            intro p hp
            rcases List.mem_cons.mp hp with rfl | hp'
            · exact Mono x y hmem
            · exact WlF p hp'
          · rw [if_neg hmem] at h
            have hup : y < g.upstream.length := by rw [hwf.lens]; exact hy
            have hwf' : Wf (g.recordPair x y) := wf_recordPair hwf hx hy hmem
            have hmono' : ∀ u v, v ∈ g.down u → v ∈ (g.recordPair x y).down u :=
              fun u v hv => (mem_down_recordPair hx).mpr (Or.inl hv)
            have hbp : ∀ p ∈ ((g.recordPair x y).up x).map (fun u => (u, y)) ++
                ((g.recordPair x y).down y).map (fun v => (x, v)) ++ wl',
                p.1 < (g.recordPair x y).numNodes ∧ p.2 < (g.recordPair x y).numNodes := by
              intro p hp
              rw [numNodes_recordPair]
              rcases List.mem_append.mp hp with hp | hp'
              · rcases List.mem_append.mp hp with hpl | hpr
                · obtain ⟨u, hu, rfl⟩ := List.mem_map.mp hpl
                  refine ⟨?_, hy⟩
                  rcases (mem_up_recordPair hup).mp hu with hu' | ⟨_, rfl⟩
                  · exact (hwf.down_lt u x ((hwf.mirror u x).mpr hu')).1
                  · exact hx
                · obtain ⟨v, hv, rfl⟩ := List.mem_map.mp hpr
                  refine ⟨hx, ?_⟩
                  rcases (mem_down_recordPair hx).mp hv with hv' | ⟨_, rfl⟩
                  · exact (hwf.down_lt y v hv').2
                  · exact hy
              · exact hb' p hp'
            obtain ⟨W, Nn, Ul, Mono, WlF, news', hout', hnd', hchar'⟩ :=
              ih (g.recordPair x y) _ _ out gf (by simpa using h) hwf' (by simpa using hbp)
            have hrecorded : y ∈ gf.down x :=
              Mono x y ((mem_down_recordPair hx).mpr (Or.inr ⟨rfl, rfl⟩))
            refine ⟨W, Nn.trans (numNodes_recordPair g x y),
              Ul.trans (upLen_recordPair g x y),
              fun u v hv => Mono u v (hmono' u v hv), ?_, (x, y) :: news', ?_, ?_, ?_⟩
            · intro p hp
              rcases List.mem_cons.mp hp with rfl | hp'
              · exact hrecorded
              · exact WlF p (by simp [hp'])
            · rw [hout']
              simp
            · refine List.nodup_cons.mpr ⟨?_, hnd'⟩
              intro hin
              exact ((hchar' (x, y)).mp hin).2 ((mem_down_recordPair hx).mpr (Or.inr ⟨rfl, rfl⟩))
            · intro p
              constructor
              · intro hp
                rcases List.mem_cons.mp hp with rfl | hp'
                · exact ⟨hrecorded, hmem⟩
                · obtain ⟨h1, h2⟩ := (hchar' p).mp hp'
                  exact ⟨h1, fun hg => h2 (hmono' p.1 p.2 hg)⟩
              · rintro ⟨h1, h2⟩
                by_cases hself : p = (x, y)
                · exact hself ▸ List.mem_cons_self _ _
                · refine List.mem_cons_of_mem _ ((hchar' p).mpr ⟨h1, ?_⟩)
                  intro hph
                  rcases (mem_down_recordPair hx).mp hph with hg | ⟨hpx, hpy⟩
                  · exact h2 hg
                  · exact hself (Prod.ext hpx hpy)

/-- Soundness of the loop: every pair recorded by the end was already
derivable from the starting sets together with the starting worklist. -/
theorem closureLoop_le_transGen :
    ∀ (fuel : Nat) (g : ReachabilityGraph) (wl acc out : List (Nat × Nat))
      (gf : ReachabilityGraph),
      closureLoop fuel g wl acc = some (out, gf) → Wf g →
      (∀ p ∈ wl, p.1 < g.numNodes ∧ p.2 < g.numNodes) →
      ∀ x y, y ∈ gf.down x →
        Relation.TransGen (fun u v => v ∈ g.down u ∨ (u, v) ∈ wl) x y := by
  intro fuel
  induction fuel with
  | zero =>
      intro g wl acc out gf h _ _
      simp [closureLoop] at h
  | succ n ih =>
      intro g wl acc out gf h hwf hb
      cases wl with
      | nil =>
          simp only [closureLoop, Option.some.injEq, Prod.mk.injEq] at h
          obtain ⟨rfl, rfl⟩ := h
          exact fun x y hy => Relation.TransGen.single (Or.inl hy)
      | cons p wl' =>
          obtain ⟨x₀, y₀⟩ := p
          have hx : x₀ < g.numNodes := (hb (x₀, y₀) (List.mem_cons_self _ _)).1
          have hy : y₀ < g.numNodes := (hb (x₀, y₀) (List.mem_cons_self _ _)).2
          have hb' : ∀ p ∈ wl', p.1 < g.numNodes ∧ p.2 < g.numNodes :=
            fun p hp => hb p (List.mem_cons_of_mem _ hp)
          simp only [closureLoop] at h
          by_cases hmem : y₀ ∈ g.down x₀
          · rw [if_pos hmem] at h
            intro x y hy'
            refine Relation.TransGen.mono ?_ (ih g wl' acc out gf h hwf hb' x y hy')
            intro u v hv
            rcases hv with hv | hv
            · exact Or.inl hv
            · exact Or.inr (List.mem_cons_of_mem _ hv)
          · rw [if_neg hmem] at h
            have hup : y₀ < g.upstream.length := by rw [hwf.lens]; exact hy
            have hwf' : Wf (g.recordPair x₀ y₀) := wf_recordPair hwf hx hy hmem
            have hbp : ∀ p ∈ ((g.recordPair x₀ y₀).up x₀).map (fun u => (u, y₀)) ++
                ((g.recordPair x₀ y₀).down y₀).map (fun v => (x₀, v)) ++ wl',
                p.1 < (g.recordPair x₀ y₀).numNodes ∧ p.2 < (g.recordPair x₀ y₀).numNodes := by
              intro p hp
              rw [numNodes_recordPair]
              rcases List.mem_append.mp hp with hp | hp'
              · rcases List.mem_append.mp hp with hpl | hpr
                · obtain ⟨u, hu, rfl⟩ := List.mem_map.mp hpl
                  refine ⟨?_, hy⟩
                  rcases (mem_up_recordPair hup).mp hu with hu' | ⟨_, rfl⟩
                  · exact (hwf.down_lt u x₀ ((hwf.mirror u x₀).mpr hu')).1
                  · exact hx
                · obtain ⟨v, hv, rfl⟩ := List.mem_map.mp hpr
                  refine ⟨hx, ?_⟩
                  rcases (mem_down_recordPair hx).mp hv with hv' | ⟨_, rfl⟩
                  · exact (hwf.down_lt y₀ v hv').2
                  · exact hy
              · exact hb' p hp'
            intro x y hy'
            have step := ih (g.recordPair x₀ y₀) _ _ out gf (by simpa using h) hwf'
              (by simpa using hbp) x y hy'
            have hbase : ∀ u v,
                (v ∈ (g.recordPair x₀ y₀).down u ∨
                  (u, v) ∈ ((g.recordPair x₀ y₀).up x₀).map (fun u => (u, y₀)) ++
                    (((g.recordPair x₀ y₀).down y₀).map (fun v => (x₀, v)) ++ wl')) →
                Relation.TransGen
                  (fun u v => v ∈ g.down u ∨ (u, v) ∈ (x₀, y₀) :: wl') u v := by
              intro u v hv
              have hhead : Relation.TransGen
                  (fun u v => v ∈ g.down u ∨ (u, v) ∈ (x₀, y₀) :: wl') x₀ y₀ :=
                Relation.TransGen.single (Or.inr (List.mem_cons_self _ _))
              rcases hv with hv | hv
              · rcases (mem_down_recordPair hx).mp hv with hg | ⟨rfl, rfl⟩
                · exact Relation.TransGen.single (Or.inl hg)
                · exact hhead
              · rcases List.mem_append.mp hv with hpl | hrest
                · obtain ⟨u', hu, heq⟩ := List.mem_map.mp hpl
                  cases heq
                  rcases (mem_up_recordPair hup).mp hu with hu' | ⟨_, rfl⟩
                  · exact Relation.TransGen.head
                      (Or.inl ((hwf.mirror u x₀).mpr hu')) hhead
                  · exact hhead
                · rcases List.mem_append.mp hrest with hpr | hv'
                  · obtain ⟨v', hv', heq⟩ := List.mem_map.mp hpr
                    cases heq
                    rcases (mem_down_recordPair hx).mp hv' with hg | ⟨rfl, rfl⟩
                    · exact Relation.TransGen.tail hhead (Or.inl hg)
                    · exact hhead
                  · exact Relation.TransGen.single (Or.inr (List.mem_cons_of_mem _ hv'))
            have hmain := Relation.TransGen.mono hbase step
            rwa [Relation.transGen_idem] at hmain

/-- Completeness engine: if the starting sets are closed under composition
except across the worklist, the final sets are closed outright. -/
theorem closureLoop_closed :
    ∀ (fuel : Nat) (g : ReachabilityGraph) (wl acc out : List (Nat × Nat))
      (gf : ReachabilityGraph),
      closureLoop fuel g wl acc = some (out, gf) → Wf g →
      (∀ p ∈ wl, p.1 < g.numNodes ∧ p.2 < g.numNodes) →
      (∀ x y z, y ∈ g.down x → z ∈ g.down y → z ∈ g.down x ∨ (x, z) ∈ wl) →
      Closed gf := by
  intro fuel
  induction fuel with
  | zero =>
      intro g wl acc out gf h _ _ _
      simp [closureLoop] at h
  | succ n ih =>
      intro g wl acc out gf h hwf hb hsemi
      cases wl with
      | nil =>
          simp only [closureLoop, Option.some.injEq, Prod.mk.injEq] at h
          obtain ⟨rfl, rfl⟩ := h
          intro x y z hxy hyz
          rcases hsemi x y z hxy hyz with hz | hz
          · exact hz
          · simp at hz
      | cons p wl' =>
          obtain ⟨x₀, y₀⟩ := p
          have hx : x₀ < g.numNodes := (hb (x₀, y₀) (List.mem_cons_self _ _)).1
          have hy : y₀ < g.numNodes := (hb (x₀, y₀) (List.mem_cons_self _ _)).2
          have hb' : ∀ p ∈ wl', p.1 < g.numNodes ∧ p.2 < g.numNodes :=
            fun p hp => hb p (List.mem_cons_of_mem _ hp)
          simp only [closureLoop] at h
          by_cases hmem : y₀ ∈ g.down x₀
          · rw [if_pos hmem] at h
            refine ih g wl' acc out gf h hwf hb' ?_
            intro x y z hxy hyz
            rcases hsemi x y z hxy hyz with hz | hz
            · exact Or.inl hz
            · rcases List.mem_cons.mp hz with heq | hz'
              · obtain ⟨rfl, rfl⟩ := Prod.mk.injEq .. ▸ heq
                exact Or.inl hmem
              · exact Or.inr hz'
          · rw [if_neg hmem] at h
            have hup : y₀ < g.upstream.length := by rw [hwf.lens]; exact hy
            have hwf' : Wf (g.recordPair x₀ y₀) := wf_recordPair hwf hx hy hmem
            have hmono' : ∀ u v, v ∈ g.down u → v ∈ (g.recordPair x₀ y₀).down u :=
              fun u v hv => (mem_down_recordPair hx).mpr (Or.inl hv)
            have hself : y₀ ∈ (g.recordPair x₀ y₀).down x₀ :=
              (mem_down_recordPair hx).mpr (Or.inr ⟨rfl, rfl⟩)
            have hbp : ∀ p ∈ ((g.recordPair x₀ y₀).up x₀).map (fun u => (u, y₀)) ++
                ((g.recordPair x₀ y₀).down y₀).map (fun v => (x₀, v)) ++ wl',
                p.1 < (g.recordPair x₀ y₀).numNodes ∧ p.2 < (g.recordPair x₀ y₀).numNodes := by
              intro p hp
              rw [numNodes_recordPair]
              rcases List.mem_append.mp hp with hp | hp'
              · rcases List.mem_append.mp hp with hpl | hpr
                · obtain ⟨u, hu, rfl⟩ := List.mem_map.mp hpl
                  refine ⟨?_, hy⟩
                  rcases (mem_up_recordPair hup).mp hu with hu' | ⟨_, rfl⟩
                  · exact (hwf.down_lt u x₀ ((hwf.mirror u x₀).mpr hu')).1
                  · exact hx
                · obtain ⟨v, hv, rfl⟩ := List.mem_map.mp hpr
                  refine ⟨hx, ?_⟩
                  rcases (mem_down_recordPair hx).mp hv with hv' | ⟨_, rfl⟩
                  · exact (hwf.down_lt y₀ v hv').2
                  · exact hy
              · exact hb' p hp'
            refine ih (g.recordPair x₀ y₀) _ _ out gf (by simpa using h) hwf'
              (by simpa using hbp) ?_
            intro x y z hxy hyz
            rcases (mem_down_recordPair hx).mp hxy with hxy' | ⟨hx1, hx2⟩
            · rcases (mem_down_recordPair hx).mp hyz with hyz' | ⟨hy1, hy2⟩
              · -- both pairs already present before recording
                rcases hsemi x y z hxy' hyz' with hz | hz
                · exact Or.inl (hmono' x z hz)
                · rcases List.mem_cons.mp hz with heq | hz'
                  · obtain ⟨rfl, rfl⟩ := Prod.mk.injEq .. ▸ heq
                    exact Or.inl hself
                  · exact Or.inr (by simp [hz'])
              · -- second pair is the recorded (x₀, y₀); push (x, y₀) leftward
                have hxup : x ∈ (g.recordPair x₀ y₀).up x₀ :=
                  (hwf'.mirror x x₀).mp (hy1 ▸ hxy)
                refine Or.inr ?_
                simp only [List.mem_append, List.mem_map]
                exact Or.inl ⟨x, hxup, by rw [hy2]⟩
            · rcases (mem_down_recordPair hx).mp hyz with hyz' | ⟨hy1, hy2⟩
              · -- first pair is the recorded (x₀, y₀); push (x₀, z) rightward
                have hzdown : z ∈ (g.recordPair x₀ y₀).down y₀ :=
                  hmono' y₀ z (hx2 ▸ hyz')
                refine Or.inr ?_
                simp only [List.mem_append, List.mem_map]
                exact Or.inr (Or.inl ⟨z, hzdown, by rw [hx1]⟩)
              · -- both are the recorded pair: x₀ = y₀
                rw [hx1, hy2]
                exact Or.inl hself

/-- A worklist holding one already-known pair is drained without changes
whenever at least two units of fuel remain. -/
theorem closureLoop_known (g : ReachabilityGraph) (x y : Nat) (acc : List (Nat × Nat))
    (fuel : Nat) (hfuel : 2 ≤ fuel) (hmem : y ∈ g.down x) :
    closureLoop fuel g [(x, y)] acc = some (acc, g) := by
  obtain ⟨m, rfl⟩ : ∃ m, fuel = m + 2 := ⟨fuel - 2, by omega⟩
  show closureLoop (m + 1 + 1) g [(x, y)] acc = some (acc, g)
  simp [closureLoop, hmem]

theorem two_le_fuelFor (g : ReachabilityGraph) : 2 ≤ fuelFor g := by
  unfold fuelFor
  omega

/-- Full functional specification of `add_edge_mut` on a well-formed,
transitively closed state with in-range endpoints: the final state is the
transitive closure of the old relation plus `(a, b)`, and the returned list
enumerates exactly the newly implied pairs, each once, including `(a, b)`
itself when it was new; when `(a, b)` was already implied nothing changes
and the returned list is empty. -/
theorem add_edge_mut_spec (g : ReachabilityGraph) (a b : Nat)
    (out : List (Nat × Nat)) (gf : ReachabilityGraph)
    (h : g.add_edge_mut a b = some (out, gf)) (hwf : Wf g) (hcl : Closed g)
    (ha : a < g.numNodes) (hb : b < g.numNodes) :
    Wf gf ∧ Closed gf ∧ gf.numNodes = g.numNodes ∧
      (∀ x y, y ∈ gf.down x ↔
        Relation.TransGen (fun u v => v ∈ g.down u ∨ (u, v) = (a, b)) x y) ∧
      out.Nodup ∧
      (∀ p : Nat × Nat, p ∈ out ↔ (p.2 ∈ gf.down p.1 ∧ p.2 ∉ g.down p.1)) ∧
      (b ∉ g.down a → (a, b) ∈ out) ∧
      (b ∈ g.down a → out = [] ∧ gf = g) := by
  have hbnd : ∀ p ∈ [(a, b)], p.1 < g.numNodes ∧ p.2 < g.numNodes := by
    intro p hp
    rcases List.mem_cons.mp hp with rfl | hp'
    · exact ⟨ha, hb⟩
    · simp at hp'
  have hloop := h
  unfold add_edge_mut at hloop
  obtain ⟨W, Nn, _, Mono, WlF, news, hout, hnd, hchar⟩ :=
    closureLoop_main (fuelFor g) g [(a, b)] [] out gf hloop hwf hbnd
  have hab : b ∈ gf.down a := WlF (a, b) (List.mem_cons_self _ _)
  have hclosed : Closed gf := by
    refine closureLoop_closed (fuelFor g) g [(a, b)] [] out gf hloop hwf hbnd ?_
    intro x y z hxy hyz
    exact Or.inl (hcl x y z hxy hyz)
  have hiff : ∀ x y, y ∈ gf.down x ↔
      Relation.TransGen (fun u v => v ∈ g.down u ∨ (u, v) = (a, b)) x y := by
    intro x y
    constructor
    · intro hy
      refine Relation.TransGen.mono ?_
        (closureLoop_le_transGen (fuelFor g) g [(a, b)] [] out gf hloop hwf hbnd x y hy)
      intro u v hv
      rcases hv with hv | hv
      · exact Or.inl hv
      · exact Or.inr (by simpa using hv)
    · intro hy
      induction hy with
      | single hbase =>
          rcases hbase with hbase | hbase
          · exact Mono _ _ hbase
          · obtain ⟨rfl, rfl⟩ := Prod.mk.injEq .. ▸ hbase
            exact hab
      | tail _ hlast hih =>
          rcases hlast with hlast | hlast
          · exact hclosed _ _ _ hih (Mono _ _ hlast)
          · obtain ⟨rfl, rfl⟩ := Prod.mk.injEq .. ▸ hlast
            exact hclosed _ _ _ hih hab
  have houtchar : ∀ p : Nat × Nat, p ∈ out ↔ (p.2 ∈ gf.down p.1 ∧ p.2 ∉ g.down p.1) := by
    intro p
    rw [hout]
    simpa using hchar p
  refine ⟨W, hclosed, Nn, hiff, ?_, houtchar, ?_, ?_⟩
  · rw [hout]
    simpa using hnd
  · intro hnew
    exact (houtchar (a, b)).mpr ⟨hab, hnew⟩
  · intro hold
    have := closureLoop_known g a b [] (fuelFor g) (two_le_fuelFor g) hold
    unfold add_edge_mut at h
    rw [this] at h
    have hpair := Option.some.injEq .. ▸ h
    exact ⟨(Prod.mk.injEq .. ▸ hpair).1.symm, (Prod.mk.injEq .. ▸ hpair).2.symm⟩

theorem down_add_node (g : ReachabilityGraph) (i : Nat) :
    (g.add_node_mut).2.down i = g.down i :=
  getD_append_default g.downstream [] i

theorem up_add_node (g : ReachabilityGraph) (i : Nat) :
    (g.add_node_mut).2.up i = g.up i :=
  getD_append_default g.upstream [] i

theorem numNodes_add_node (g : ReachabilityGraph) :
    (g.add_node_mut).2.numNodes = g.numNodes + 1 := by
  simp [add_node_mut, numNodes]

theorem wf_add_node {g : ReachabilityGraph} (hwf : Wf g) : Wf (g.add_node_mut).2 := by
  refine ⟨?_, ?_, ?_, ?_, ?_⟩
  · simp [add_node_mut, hwf.lens]
  · intro x
    rw [down_add_node]
    exact hwf.down_nodup x
  · intro x
    rw [up_add_node]
    exact hwf.up_nodup x
  · intro x y hy
    rw [down_add_node] at hy
    rw [numNodes_add_node]
    obtain ⟨h1, h2⟩ := hwf.down_lt x y hy
    omega
  · intro x y
    rw [down_add_node, up_add_node]
    exact hwf.mirror x y

theorem closed_add_node {g : ReachabilityGraph} (hcl : Closed g) :
    Closed (g.add_node_mut).2 := by
  intro x y z hxy hyz
  rw [down_add_node] at *
  exact hcl x y z hxy hyz

theorem wf_empty : Wf empty := by
  refine ⟨rfl, ?_, ?_, ?_, ?_⟩ <;> intro x <;> simp [empty, down, up]

theorem closed_empty : Closed empty := by
  intro x y z hxy
  simp [empty, down] at hxy

end ReachabilityGraph

theorem transGen_congr {r s : Nat → Nat → Prop} (h : ∀ u v, r u v ↔ s u v)
    (x y : Nat) : Relation.TransGen r x y ↔ Relation.TransGen s x y :=
  ⟨Relation.TransGen.mono fun u v => (h u v).mp,
   Relation.TransGen.mono fun u v => (h u v).mpr⟩

theorem transGen_or_absorb {r s : Nat → Nat → Prop} (x y : Nat) :
    Relation.TransGen (fun u v => Relation.TransGen r u v ∨ s u v) x y ↔
      Relation.TransGen (fun u v => r u v ∨ s u v) x y := by
  constructor
  · intro h
    have h2 := Relation.TransGen.mono
      (p := fun u v => Relation.TransGen (fun w t => r w t ∨ s w t) u v) ?_ h
    · rwa [Relation.transGen_idem] at h2
    · intro u v hv
      rcases hv with hv | hv
      · exact Relation.TransGen.mono (fun w t hw => Or.inl hw) hv
      · exact Relation.TransGen.single (Or.inr hv)
  · refine Relation.TransGen.mono ?_
    intro u v hv
    rcases hv with hv | hv
    · exact Or.inl (Relation.TransGen.single hv)
    · exact Or.inr hv

/-- Running a well-formed operation suffix on a closed well-formed state
yields exactly the transitive closure of the old relation plus the
requested edges. -/
theorem runGOps_spec :
    ∀ (ops : List GOp) (g gf : ReachabilityGraph),
      runGOps ops g = some gf → ReachabilityGraph.Wf g → ReachabilityGraph.Closed g →
      wfOps ops g.numNodes = true →
      ReachabilityGraph.Wf gf ∧ ReachabilityGraph.Closed gf ∧
        ∀ x y, y ∈ gf.down x ↔
          Relation.TransGen
            (fun u v => v ∈ g.down u ∨ (u, v) ∈ baseEdges ops) x y := by
  intro ops
  induction ops with
  | nil =>
      intro g gf h hwf hcl _
      simp only [runGOps, Option.some.injEq] at h
      subst h
      refine ⟨hwf, hcl, fun x y => ?_⟩
      rw [transGen_congr (s := fun u v => v ∈ g.down u) (by simp [baseEdges]) x y,
        Relation.transGen_eq_self hcl]
  | cons op rest ih =>
      intro g gf h hwf hcl hops
      cases op with
      | addNode =>
          simp only [runGOps] at h
          simp only [wfOps] at hops
          rw [← ReachabilityGraph.numNodes_add_node] at hops
          obtain ⟨W, C, hiff⟩ := ih _ gf h (ReachabilityGraph.wf_add_node hwf)
            (ReachabilityGraph.closed_add_node hcl) hops
          refine ⟨W, C, fun x y => ?_⟩
          rw [hiff x y]
          refine transGen_congr (fun u v => ?_) x y
          rw [ReachabilityGraph.down_add_node]
          simp [baseEdges]
      | addEdge a b =>
          simp only [runGOps] at h
          simp only [wfOps, Bool.and_eq_true, decide_eq_true_eq] at hops
          obtain ⟨⟨ha, hb⟩, hrest⟩ := hops
          cases hedge : g.add_edge_mut a b with
          | none => rw [hedge] at h; simp at h
          | some res =>
              obtain ⟨out, g1⟩ := res
              rw [hedge] at h
              simp only at h
              obtain ⟨W1, C1, Nn1, hiff1, _, _, _, _⟩ :=
                ReachabilityGraph.add_edge_mut_spec g a b out g1 hedge hwf hcl ha hb
              obtain ⟨W, C, hiff⟩ := ih g1 gf h W1 C1 (by rw [Nn1]; exact hrest)
              refine ⟨W, C, fun x y => ?_⟩
              rw [hiff x y,
                transGen_congr (s := fun u v =>
                  Relation.TransGen
                    (fun w t => t ∈ g.down w ∨ (w, t) = (a, b)) u v ∨
                    (u, v) ∈ baseEdges rest)
                  (fun u v => by rw [hiff1 u v]) x y,
                transGen_or_absorb x y]
              refine transGen_congr (fun u v => ?_) x y
              simp only [baseEdges, List.mem_cons]
              tauto

/-- A graph built from the empty state by a well-formed operation sequence
is well-formed, closed, and its downstream sets are exactly the transitive
closure of the requested edges. -/
theorem buildGraph_spec (ops : List GOp) (g : ReachabilityGraph)
    (hops : wfOps ops 0 = true) (h : buildGraph ops = some g) :
    ReachabilityGraph.Wf g ∧ ReachabilityGraph.Closed g ∧
      ∀ x y, y ∈ g.down x ↔
        Relation.TransGen (fun u v => (u, v) ∈ baseEdges ops) x y := by
  obtain ⟨W, C, hiff⟩ := runGOps_spec ops ReachabilityGraph.empty g h
    ReachabilityGraph.wf_empty ReachabilityGraph.closed_empty hops
  refine ⟨W, C, fun x y => ?_⟩
  rw [hiff x y]
  refine transGen_congr (fun u v => ?_) x y
  simp [ReachabilityGraph.empty, ReachabilityGraph.down]

/-- **C1**: for every graph built purely from `add_node` and `add_edge`
calls and every pair of nodes `a`, `b`, `b` is in `downstream[a]` iff there
is a directed path of length ≥ 1 from `a` to `b` along the requested edges,
and symmetrically `a` is in `upstream[b]`. -/
theorem closure_invariant (ops : List GOp) (g : ReachabilityGraph) (a b : Nat)
    (hops : wfOps ops 0 = true) (hbuild : buildGraph ops = some g) :
    (b ∈ g.down a ↔
      Relation.TransGen (fun u v => (u, v) ∈ baseEdges ops) a b) ∧
    (a ∈ g.up b ↔
      Relation.TransGen (fun u v => (u, v) ∈ baseEdges ops) a b) := by
  obtain ⟨W, _, hiff⟩ := buildGraph_spec ops g hops hbuild
  refine ⟨hiff a b, ?_⟩
  rw [← W.mirror a b]
  exact hiff a b

theorem closure_invariant_witness :
    2 ∈ (ReachabilityGraph.mk [[], [0], [1, 0]] [[1, 2], [2], []]).down 0 := by
  have h := (closure_invariant
    [GOp.addNode, GOp.addNode, GOp.addNode, GOp.addEdge 0 1, GOp.addEdge 1 2]
    ⟨[[], [0], [1, 0]], [[1, 2], [2], []]⟩ 0 2 (by decide) (by decide)).1
  have h1 : Relation.TransGen
      (fun u v => (u, v) ∈ baseEdges
        [GOp.addNode, GOp.addNode, GOp.addNode, GOp.addEdge 0 1, GOp.addEdge 1 2]) 0 1 :=
    Relation.TransGen.single (by decide)
  exact h.mpr (h1.tail (by decide))

/-- **C2**: on a built graph with existing nodes `a`, `b`, `add_edge(a, b)`
returns exactly the newly implied reachability pairs, each exactly once; it
contains `(a, b)` itself when `(a, b)` was not already implied, and it is
empty when `(a, b)` was already implied. -/
theorem add_edge_new_pairs (ops : List GOp) (g : ReachabilityGraph) (a b : Nat)
    (out : List (Nat × Nat)) (gf : ReachabilityGraph)
    (hops : wfOps ops 0 = true) (hbuild : buildGraph ops = some g)
    (ha : a < g.numNodes) (hb : b < g.numNodes)
    (h : g.add_edge_mut a b = some (out, gf)) :
    (∀ p : Nat × Nat, p ∈ out ↔
      (Relation.TransGen (fun u v => (u, v) ∈ (a, b) :: baseEdges ops) p.1 p.2 ∧
       ¬ Relation.TransGen (fun u v => (u, v) ∈ baseEdges ops) p.1 p.2)) ∧
    out.Nodup ∧
    (¬ Relation.TransGen (fun u v => (u, v) ∈ baseEdges ops) a b → (a, b) ∈ out) ∧
    (Relation.TransGen (fun u v => (u, v) ∈ baseEdges ops) a b → out = []) := by
  obtain ⟨W, C, hg⟩ := buildGraph_spec ops g hops hbuild
  obtain ⟨W1, C1, Nn1, hiff1, hnd, hchar, hincl, hold⟩ :=
    ReachabilityGraph.add_edge_mut_spec g a b out gf h W C ha hb
  have hnewiff : ∀ x y, y ∈ gf.down x ↔
      Relation.TransGen (fun u v => (u, v) ∈ (a, b) :: baseEdges ops) x y := by
    intro x y
    rw [hiff1 x y,
      transGen_congr (s := fun u v =>
        Relation.TransGen (fun w t => (w, t) ∈ baseEdges ops) u v ∨ (u, v) = (a, b))
        (fun u v => by rw [hg u v]) x y,
      transGen_or_absorb x y]
    refine transGen_congr (fun u v => ?_) x y
    simp only [List.mem_cons]
    tauto
  refine ⟨fun p => ?_, hnd, ?_, ?_⟩
  · rw [hchar p, hnewiff p.1 p.2, hg p.1 p.2]
  · intro hnot
    exact hincl fun hmem => hnot ((hg a b).mp hmem)
  · intro hyes
    exact (hold ((hg a b).mpr hyes)).1

theorem add_edge_new_pairs_witness :
    ReachabilityGraph.add_edge_mut ⟨[[], []], [[], []]⟩ 0 1 =
      some ([(0, 1)], ⟨[[], [0]], [[1], []]⟩) ∧
    (0, 1) ∈ [((0 : Nat), (1 : Nat))] := by
  refine ⟨by decide, ?_⟩
  refine (add_edge_new_pairs [GOp.addNode, GOp.addNode] ⟨[[], []], [[], []]⟩ 0 1
    [(0, 1)] ⟨[[], [0]], [[1], []]⟩ (by decide) (by decide) (by decide) (by decide)
    (by decide)).2.2.1 ?_
  intro hreach
  cases hreach with
  | single hstep => simp [baseEdges] at hstep
  | tail _ hstep => simp [baseEdges] at hstep

/-- **C6** (amended): on a built graph with existing nodes `a`, `b`, and
provided `(a, b)` is not already implied by the edges inserted so far,
calling `add_edge(a, b)` twice with no other intervening insertions yields
a non-empty result the first time and an empty result the second time
(without the proviso the first call can already return an empty list). -/
theorem add_edge_twice (ops : List GOp) (g : ReachabilityGraph) (a b : Nat)
    (out1 : List (Nat × Nat)) (g1 : ReachabilityGraph)
    (hops : wfOps ops 0 = true) (hbuild : buildGraph ops = some g)
    (ha : a < g.numNodes) (hb : b < g.numNodes)
    (hnew : ¬ Relation.TransGen (fun u v => (u, v) ∈ baseEdges ops) a b)
    (h1 : g.add_edge_mut a b = some (out1, g1)) :
    out1 ≠ [] ∧ g1.add_edge_mut a b = some ([], g1) := by
  obtain ⟨W, C, hg⟩ := buildGraph_spec ops g hops hbuild
  have hnot : b ∉ g.down a := fun hmem => hnew ((hg a b).mp hmem)
  obtain ⟨W1, C1, Nn1, hiff1, hnd, hchar, hincl, _⟩ :=
    ReachabilityGraph.add_edge_mut_spec g a b out1 g1 h1 W C ha hb
  have hmem1 : b ∈ g1.down a :=
    (hiff1 a b).mpr (Relation.TransGen.single (Or.inr rfl))
  constructor
  · intro hempty
    have habs := hincl hnot
    rw [hempty] at habs
    simp at habs
  · unfold ReachabilityGraph.add_edge_mut
    exact ReachabilityGraph.closureLoop_known g1 a b []
      (ReachabilityGraph.fuelFor g1) (ReachabilityGraph.two_le_fuelFor g1) hmem1

theorem add_edge_twice_witness :
    ([((0 : Nat), (1 : Nat))] ≠ ([] : List (Nat × Nat))) ∧
    ReachabilityGraph.add_edge_mut ⟨[[], [0]], [[1], []]⟩ 0 1 =
      some ([], ⟨[[], [0]], [[1], []]⟩) := by
  refine add_edge_twice [GOp.addNode, GOp.addNode] ⟨[[], []], [[], []]⟩ 0 1
    [(0, 1)] ⟨[[], [0]], [[1], []]⟩ (by decide) (by decide) (by decide) (by decide)
    ?_ (by decide)
  intro hreach
  cases hreach with
  | single hstep => simp [baseEdges] at hstep
  | tail _ hstep => simp [baseEdges] at hstep

/-- **C6** counterexample: a graph built purely from `add_node`/`add_edge`
calls on which, for the existing nodes 0 and 1, the first of two
`add_edge(0, 1)` calls already returns the empty list, refuting "yields a
non-empty result from the first call" for every graph. -/
theorem add_edge_twice_counterexample :
    buildGraph [GOp.addNode, GOp.addNode, GOp.addEdge 0 1] =
      some ⟨[[], [0]], [[1], []]⟩ ∧
    ReachabilityGraph.add_edge_mut ⟨[[], [0]], [[1], []]⟩ 0 1 =
      some ([], ⟨[[], [0]], [[1], []]⟩) := by
  exact ⟨by decide, by decide⟩

/-- **C10**: for an existing node `n`, `upper_bounds` returns `none` (never
`some` of an empty list) when no edge recorded at `n` has source `n`, and
otherwise `some` of exactly the destinations of those edges in insertion
order; an edge `(a, b)` with `a ≠ b` appends `b` to the destinations at `a`
and leaves the destinations at `b` unchanged. -/
theorem upper_bounds_spec (N : Type) (g : Graph N) (n : Nat)
    (hn : n < g.edges.length) :
    (g.upper_bounds n = none ↔ Graph.outDestinations g n = []) ∧
    (∀ l, g.upper_bounds n = some l → l = Graph.outDestinations g n ∧ l ≠ []) ∧
    (∀ a b : Nat, a ≠ b → a < g.edges.length → b < g.edges.length →
      Graph.outDestinations (g.mut_add_directed_edge a b).2 a =
        Graph.outDestinations g a ++ [b] ∧
      Graph.outDestinations (g.mut_add_directed_edge a b).2 b =
        Graph.outDestinations g b) := by
  refine ⟨?_, ?_, ?_⟩
  · simp only [Graph.upper_bounds]
    by_cases h : (Graph.outDestinations g n).isEmpty = true
    · rw [if_pos h]
      simpa [List.isEmpty_iff] using h
    · rw [if_neg h]
      simp [List.isEmpty_iff] at h
      simp [h]
  · intro l hl
    simp only [Graph.upper_bounds] at hl
    by_cases h : (Graph.outDestinations g n).isEmpty = true
    · rw [if_pos h] at hl
      simp at hl
    · rw [if_neg h] at hl
      simp [List.isEmpty_iff] at h
      simp only [Option.some.injEq] at hl
      exact ⟨hl.symm, hl ▸ h⟩
  · intro a b hne halt hblt
    have hedges : (g.mut_add_directed_edge a b).2.edges =
        (g.edges.set b ((g.edges.getD b []) ++ [(a, b)])).set a
          (((g.edges.set b ((g.edges.getD b []) ++ [(a, b)])).getD a []) ++ [(a, b)]) := rfl
    constructor
    · unfold Graph.outDestinations
      rw [hedges, getD_set_self _ _ _ _ (by simpa using halt),
        getD_set_ne _ _ _ _ _ (Ne.symm hne), List.filterMap_append]
      simp
    · unfold Graph.outDestinations
      rw [hedges, getD_set_ne _ _ _ _ _ hne,
        getD_set_self _ _ _ _ (by simpa using hblt), List.filterMap_append]
      simp [hne]

theorem upper_bounds_spec_witness :
    ([1] : List Nat) =
      Graph.outDestinations (⟨[(), ()], [[(0, 1)], [(0, 1)]]⟩ : Graph Unit) 0 ∧
    ([1] : List Nat) ≠ [] :=
  (upper_bounds_spec Unit ⟨[(), ()], [[(0, 1)], [(0, 1)]]⟩ 0 (by decide)).2.1
    [1] (by decide)

/-- **C5**: `var` allocates exactly one graph node, records its payload as
Placeholder (`Var`), and returns a `Value` handle and a `Use` handle that
wrap the same fresh node identifier; under the store invariant that shared
identifier indexes the recorded Placeholder entry. -/
theorem var_spec (V U : Type) (tc : TypeChecker V U)
    (hinv : tc.r.numNodes = tc.types.length) :
    ((tc.var).1.1.id = (tc.var).1.2.id) ∧
    ((tc.var).1.1.id = tc.r.numNodes) ∧
    ((tc.var).2.r.numNodes = tc.r.numNodes + 1) ∧
    ((tc.var).2.types = tc.types ++ [TypeNode.Var]) ∧
    ((tc.var).2.types[(tc.var).1.1.id]? = some TypeNode.Var) := by
  refine ⟨rfl, rfl, ?_, rfl, ?_⟩
  · simp [TypeChecker.var, ReachabilityGraph.add_node_mut, ReachabilityGraph.numNodes]
  · show (tc.types ++ [TypeNode.Var])[tc.r.numNodes]? = some TypeNode.Var
    rw [hinv, List.getElem?_append_right (le_refl _)]
    simp

theorem var_spec_witness :
    (((TypeChecker.new : TypeChecker AbstractTypeValue AbstractTypeUse).var).1.1.id =
      ((TypeChecker.new : TypeChecker AbstractTypeValue AbstractTypeUse).var).1.2.id) ∧
    (((TypeChecker.new : TypeChecker AbstractTypeValue AbstractTypeUse).var).1.1.id =
      (TypeChecker.new : TypeChecker AbstractTypeValue AbstractTypeUse).r.numNodes) ∧
    (((TypeChecker.new : TypeChecker AbstractTypeValue AbstractTypeUse).var).2.r.numNodes =
      (TypeChecker.new : TypeChecker AbstractTypeValue AbstractTypeUse).r.numNodes + 1) ∧
    (((TypeChecker.new : TypeChecker AbstractTypeValue AbstractTypeUse).var).2.types =
      (TypeChecker.new : TypeChecker AbstractTypeValue AbstractTypeUse).types ++
        [TypeNode.Var]) ∧
    (((TypeChecker.new : TypeChecker AbstractTypeValue AbstractTypeUse).var).2.types[
      ((TypeChecker.new : TypeChecker AbstractTypeValue AbstractTypeUse).var).1.1.id]? =
      some TypeNode.Var) :=
  var_spec AbstractTypeValue AbstractTypeUse TypeChecker.new rfl

theorem closureLoop_lengths :
    ∀ (fuel : Nat) (g : ReachabilityGraph) (wl acc out : List (Nat × Nat))
      (gf : ReachabilityGraph),
      ReachabilityGraph.closureLoop fuel g wl acc = some (out, gf) →
      gf.downstream.length = g.downstream.length ∧
        gf.upstream.length = g.upstream.length := by
  intro fuel
  induction fuel with
  | zero =>
      intro g wl acc out gf h
      simp [ReachabilityGraph.closureLoop] at h
  | succ n ih =>
      intro g wl acc out gf h
      cases wl with
      | nil =>
          simp only [ReachabilityGraph.closureLoop, Option.some.injEq,
            Prod.mk.injEq] at h
          rw [← h.2]
          exact ⟨rfl, rfl⟩
      | cons p wl' =>
          obtain ⟨x, y⟩ := p
          simp only [ReachabilityGraph.closureLoop] at h
          by_cases hmem : y ∈ g.down x
          · rw [if_pos hmem] at h
            exact ih g wl' acc out gf h
          · rw [if_neg hmem] at h
            have := ih _ _ _ out gf (by simpa using h)
            simpa [ReachabilityGraph.recordPair] using this

theorem add_edge_mut_lengths (g : ReachabilityGraph) (a b : Nat)
    (out : List (Nat × Nat)) (gf : ReachabilityGraph)
    (h : g.add_edge_mut a b = some (out, gf)) :
    gf.downstream.length = g.downstream.length ∧
      gf.upstream.length = g.upstream.length :=
  closureLoop_lengths _ g [(a, b)] [] out gf h

theorem flowLoop_lengths {V U E : Type} (types : List (TypeNode V U))
    (meet : V → U → Except E (List (Value × Use))) :
    ∀ (fuel : Nat) (g : ReachabilityGraph) (pending : List (Value × Use))
      (e : Option E) (gf : ReachabilityGraph),
      TypeChecker.flowLoop types meet fuel g pending = some (e, gf) →
      gf.downstream.length = g.downstream.length ∧
        gf.upstream.length = g.upstream.length := by
  intro fuel
  induction fuel with
  | zero =>
      intro g pending e gf h
      simp [TypeChecker.flowLoop] at h
  | succ n ih =>
      intro g pending e gf h
      cases pending with
      | nil =>
          simp only [TypeChecker.flowLoop, Option.some.injEq, Prod.mk.injEq] at h
          rw [← h.2]
          exact ⟨rfl, rfl⟩
      | cons p pending' =>
          obtain ⟨lhs, rhs⟩ := p
          simp only [TypeChecker.flowLoop] at h
          cases hedge : g.add_edge_mut lhs.id rhs.id with
          | none => rw [hedge] at h; simp at h
          | some res =>
              obtain ⟨pairs, g1⟩ := res
              rw [hedge] at h
              simp only at h
              have hlen1 := add_edge_mut_lengths g lhs.id rhs.id pairs g1 hedge
              cases hchk : TypeChecker.checkPairs types meet pairs.reverse with
              | error e' =>
                  rw [hchk] at h
                  simp only [Option.some.injEq, Prod.mk.injEq] at h
                  rw [← h.2]
                  exact hlen1
              | ok new_edges =>
                  rw [hchk] at h
                  simp only at h
                  have hlen2 := ih g1 (new_edges.reverse ++ pending') e gf h
                  exact ⟨hlen2.1.trans hlen1.1, hlen2.2.trans hlen1.2⟩

/-- **C9**: the node count of the reachability graph always equals the
length of the `types` payload vector: the invariant is preserved by every
public operation, and each node-creating operation returns a handle that
indexes a valid payload entry of the new state. -/
theorem store_invariant :
    (∀ (V U E : Type) (meet : V → U → Except E (List (Value × Use)))
       (tc : TypeChecker V U) (op : TCOp V U) (tc' : TypeChecker V U),
       tc.r.numNodes = tc.types.length → runTCOp meet tc op = some tc' →
       tc'.r.numNodes = tc'.types.length) ∧
    (∀ (V U : Type) (tc : TypeChecker V U) (v : V),
       tc.r.numNodes = tc.types.length →
       (tc.new_val v).1.id < (tc.new_val v).2.types.length) ∧
    (∀ (V U : Type) (tc : TypeChecker V U) (u : U),
       tc.r.numNodes = tc.types.length →
       (tc.new_use u).1.id < (tc.new_use u).2.types.length) ∧
    (∀ (V U : Type) (tc : TypeChecker V U),
       tc.r.numNodes = tc.types.length →
       (tc.var).1.1.id < (tc.var).2.types.length) := by
  refine ⟨?_, ?_, ?_, ?_⟩
  · intro V U E meet tc op tc' hinv hrun
    cases op with
    | newVal v =>
        simp only [runTCOp, Option.some.injEq] at hrun
        rw [← hrun]
        simp only [TypeChecker.new_val, ReachabilityGraph.add_node_mut,
          ReachabilityGraph.numNodes] at hinv ⊢
        simp [hinv]
    | newUse u =>
        simp only [runTCOp, Option.some.injEq] at hrun
        rw [← hrun]
        simp only [TypeChecker.new_use, ReachabilityGraph.add_node_mut,
          ReachabilityGraph.numNodes] at hinv ⊢
        simp [hinv]
    | var =>
        simp only [runTCOp, Option.some.injEq] at hrun
        rw [← hrun]
        simp only [TypeChecker.var, ReachabilityGraph.add_node_mut,
          ReachabilityGraph.numNodes] at hinv ⊢
        simp [hinv]
    | flow fuel lhs rhs =>
        simp only [runTCOp, TypeChecker.flow, Option.map_map, Function.comp,
          Option.map_eq_some'] at hrun
        obtain ⟨⟨e, gf⟩, hloop, heq⟩ := hrun
        rw [← heq]
        have hl := flowLoop_lengths tc.types meet fuel tc.r [(lhs, rhs)] e gf hloop
        simp only [ReachabilityGraph.numNodes] at hinv ⊢
        rw [hl.1]
        exact hinv
  · intro V U tc v hinv
    simp only [TypeChecker.new_val, ReachabilityGraph.add_node_mut,
      ReachabilityGraph.numNodes] at hinv ⊢
    simp [hinv]
  · intro V U tc u hinv
    simp only [TypeChecker.new_use, ReachabilityGraph.add_node_mut,
      ReachabilityGraph.numNodes] at hinv ⊢
    simp [hinv]
  · intro V U tc hinv
    simp only [TypeChecker.var, ReachabilityGraph.add_node_mut,
      ReachabilityGraph.numNodes] at hinv ⊢
    simp [hinv]

theorem store_invariant_witness :
    ((((TypeChecker.new : TypeChecker AbstractTypeValue AbstractTypeUse).new_val
        AbstractTypeValue.VBool).2).r.numNodes =
      (((TypeChecker.new : TypeChecker AbstractTypeValue AbstractTypeUse).new_val
        AbstractTypeValue.VBool).2).types.length) ∧
    (((TypeChecker.new : TypeChecker AbstractTypeValue AbstractTypeUse).new_val
        AbstractTypeValue.VBool).1.id <
      (((TypeChecker.new : TypeChecker AbstractTypeValue AbstractTypeUse).new_val
        AbstractTypeValue.VBool).2).types.length) := by
  constructor
  · exact store_invariant.1 AbstractTypeValue AbstractTypeUse TypeError
      LiteralTypeSystem.meet TypeChecker.new (TCOp.newVal AbstractTypeValue.VBool) _
      rfl rfl
  · exact store_invariant.2.1 AbstractTypeValue AbstractTypeUse TypeChecker.new
      AbstractTypeValue.VBool rfl

theorem flowLoop_step_error {V U E : Type} (types : List (TypeNode V U))
    (meet : V → U → Except E (List (Value × Use))) (fuel : Nat)
    (g : ReachabilityGraph) (lhs : Value) (rhs : Use) (pending : List (Value × Use))
    (pairs : List (Nat × Nat)) (g1 : ReachabilityGraph) (e : E)
    (h1 : g.add_edge_mut lhs.id rhs.id = some (pairs, g1))
    (h2 : TypeChecker.checkPairs types meet pairs.reverse = Except.error e) :
    TypeChecker.flowLoop types meet (fuel + 1) g ((lhs, rhs) :: pending) =
      some (some e, g1) := by
  simp [TypeChecker.flowLoop, h1, h2]

theorem flowLoop_step_ok {V U E : Type} (types : List (TypeNode V U))
    (meet : V → U → Except E (List (Value × Use))) (fuel : Nat)
    (g : ReachabilityGraph) (lhs : Value) (rhs : Use) (pending : List (Value × Use))
    (pairs : List (Nat × Nat)) (g1 : ReachabilityGraph)
    (new_edges : List (Value × Use))
    (h1 : g.add_edge_mut lhs.id rhs.id = some (pairs, g1))
    (h2 : TypeChecker.checkPairs types meet pairs.reverse = Except.ok new_edges) :
    TypeChecker.flowLoop types meet (fuel + 1) g ((lhs, rhs) :: pending) =
      TypeChecker.flowLoop types meet fuel g1 (new_edges.reverse ++ pending) := by
  simp [TypeChecker.flowLoop, h1, h2]

theorem flowLoop_nil {V U E : Type} (types : List (TypeNode V U))
    (meet : V → U → Except E (List (Value × Use))) (fuel : Nat)
    (g : ReachabilityGraph) :
    TypeChecker.flowLoop types meet (fuel + 1) g [] = some (none, g) := rfl

/-- From any state the loop can reach, a failing meet batch at the head
assertion makes the whole remaining loop return exactly that error and the
graph at the failure point, for every sufficient fuel. -/
theorem flowSteps_error_result {V U E : Type} (types : List (TypeNode V U))
    (meet : V → U → Except E (List (Value × Use)))
    (g : ReachabilityGraph) (lhs : Value) (rhs : Use)
    (pending : List (Value × Use)) (pairs : List (Nat × Nat))
    (g1 : ReachabilityGraph) (e : E)
    (hadd : g.add_edge_mut lhs.id rhs.id = some (pairs, g1))
    (hchk : TypeChecker.checkPairs types meet pairs.reverse = Except.error e) :
    ∀ (gs : ReachabilityGraph) (ps : List (Value × Use)),
      FlowSteps types meet g ((lhs, rhs) :: pending) gs ps →
      ∃ fuel₀ : Nat, ∀ fuel : Nat, fuel₀ ≤ fuel →
        TypeChecker.flowLoop types meet fuel gs ps = some (some e, g1) := by
  intro gs ps hsteps
  induction hsteps with
  | refl =>
      refine ⟨1, ?_⟩
      intro fuel hfuel
      obtain ⟨k, rfl⟩ : ∃ k, fuel = k + 1 := ⟨fuel - 1, by omega⟩
      exact flowLoop_step_error types meet k g lhs rhs pending pairs g1 e hadd hchk
  | step hadd' hchk' _ ih =>
      obtain ⟨fuel₀, hf⟩ := ih
      refine ⟨fuel₀ + 1, ?_⟩
      intro fuel hfuel
      obtain ⟨k, rfl⟩ : ∃ k, fuel = k + 1 := ⟨fuel - 1, by omega⟩
      rw [flowLoop_step_ok types meet k _ _ _ _ _ _ _ hadd' hchk']
      exact hf k (by omega)

/-- Every error outcome of the loop is a meet-batch error surfaced
unchanged: the loop reached some state through successful iterations, the
head assertion's newly implied batch failed there, and the returned graph
is exactly the edge-insertion result at that failing iteration. -/
theorem flowLoop_error_inv {V U E : Type} (types : List (TypeNode V U))
    (meet : V → U → Except E (List (Value × Use))) :
    ∀ (fuel : Nat) (g : ReachabilityGraph) (pending : List (Value × Use))
      (e : E) (gf : ReachabilityGraph),
      TypeChecker.flowLoop types meet fuel g pending = some (some e, gf) →
      ∃ (g' : ReachabilityGraph) (l : Value) (r : Use)
        (p' : List (Value × Use)) (pairs : List (Nat × Nat)),
        FlowSteps types meet g' ((l, r) :: p') g pending ∧
        g'.add_edge_mut l.id r.id = some (pairs, gf) ∧
        TypeChecker.checkPairs types meet pairs.reverse = Except.error e := by
  intro fuel
  induction fuel with
  | zero =>
      intro g pending e gf h
      simp [TypeChecker.flowLoop] at h
  | succ n ih =>
      intro g pending e gf h
      cases pending with
      | nil => simp [TypeChecker.flowLoop] at h
      | cons p pending' =>
          obtain ⟨lhs, rhs⟩ := p
          simp only [TypeChecker.flowLoop] at h
          cases hedge : g.add_edge_mut lhs.id rhs.id with
          | none => rw [hedge] at h; simp at h
          | some res =>
              obtain ⟨pairs, g1⟩ := res
              rw [hedge] at h
              simp only at h
              cases hchk : TypeChecker.checkPairs types meet pairs.reverse with
              | error e' =>
                  rw [hchk] at h
                  simp only [Option.some.injEq, Prod.mk.injEq] at h
                  exact ⟨g, lhs, rhs, pending', pairs, FlowSteps.refl,
                    h.2 ▸ hedge, h.1 ▸ hchk⟩
              | ok new_edges =>
                  rw [hchk] at h
                  simp only at h
                  obtain ⟨g', l, r, p', pairs', hsteps, hret, herr⟩ :=
                    ih g1 (new_edges.reverse ++ pending') e gf h
                  exact ⟨g', l, r, p', pairs',
                    FlowSteps.step hedge hchk hsteps, hret, herr⟩

/-- **C3**: when a lattice meet fails for an implied (value, use) pair at
any point of a flow call — on the seeded assertion or after any number of
cascaded assertions — the error is returned immediately as the result of
that call: the remaining fuel is never consumed (no retry), every
assertion still queued at that moment is abandoned (no local recovery),
and the returned state is exactly the graph at the failing insertion (no
rollback).  Conversely every error result of a flow call arises exactly
this way.  Concretely: a cascading lattice fails on the second outer
iteration with an assertion still queued, and the literal system's
Bool-into-Float failure leaves the solver usable — a subsequent unrelated
assertion on the same solver still succeeds. -/
theorem flow_error_handling :
    (∀ (V U E : Type) (tc : TypeChecker V U)
       (meet : V → U → Except E (List (Value × Use))) (fuel : Nat)
       (lhs : Value) (rhs : Use) (pairs : List (Nat × Nat))
       (g1 : ReachabilityGraph) (e : E),
       tc.r.add_edge_mut lhs.id rhs.id = some (pairs, g1) →
       TypeChecker.checkPairs tc.types meet pairs.reverse = Except.error e →
       tc.flow meet (fuel + 1) lhs rhs = some (some e, { tc with r := g1 })) ∧
    (∀ (V U E : Type) (tc : TypeChecker V U)
       (meet : V → U → Except E (List (Value × Use)))
       (lhs₀ : Value) (rhs₀ : Use) (g : ReachabilityGraph)
       (lhs : Value) (rhs : Use) (pending : List (Value × Use))
       (pairs : List (Nat × Nat)) (g1 : ReachabilityGraph) (e : E),
       FlowSteps tc.types meet g ((lhs, rhs) :: pending) tc.r [(lhs₀, rhs₀)] →
       g.add_edge_mut lhs.id rhs.id = some (pairs, g1) →
       TypeChecker.checkPairs tc.types meet pairs.reverse = Except.error e →
       ∃ fuel₀ : Nat, ∀ fuel : Nat, fuel₀ ≤ fuel →
         tc.flow meet fuel lhs₀ rhs₀ = some (some e, { tc with r := g1 })) ∧
    (∀ (V U E : Type) (tc : TypeChecker V U)
       (meet : V → U → Except E (List (Value × Use))) (fuel : Nat)
       (lhs : Value) (rhs : Use) (e : E) (tc' : TypeChecker V U),
       tc.flow meet fuel lhs rhs = some (some e, tc') →
       tc'.types = tc.types ∧
       ∃ (g' : ReachabilityGraph) (l : Value) (r : Use)
         (p' : List (Value × Use)) (pairs : List (Nat × Nat)),
         FlowSteps tc.types meet g' ((l, r) :: p') tc.r [(lhs, rhs)] ∧
         g'.add_edge_mut l.id r.id = some (pairs, tc'.r) ∧
         TypeChecker.checkPairs tc.types meet pairs.reverse = Except.error e) ∧
    (∀ fuel : Nat,
      (⟨⟨[[], [], [], []], [[], [], [], []]⟩,
        [TypeNode.Value AbstractTypeValue.VBool,
         TypeNode.Use AbstractTypeUse.UBool,
         TypeNode.Value AbstractTypeValue.VFloat,
         TypeNode.Use AbstractTypeUse.UFloat]⟩ :
          TypeChecker AbstractTypeValue AbstractTypeUse).flow
        cascadeMeet (fuel + 2) ⟨0⟩ ⟨1⟩ =
      some (some TypeError.Converge,
        ⟨⟨[[], [0], [], [2]], [[1], [], [3], []]⟩,
         [TypeNode.Value AbstractTypeValue.VBool,
          TypeNode.Use AbstractTypeUse.UBool,
          TypeNode.Value AbstractTypeValue.VFloat,
          TypeNode.Use AbstractTypeUse.UFloat]⟩)) ∧
    (∀ fuel : Nat,
      ((((TypeChecker.new : TypeChecker AbstractTypeValue AbstractTypeUse).new_val
          AbstractTypeValue.VBool).2.new_use AbstractTypeUse.UFloat).2.flow
        LiteralTypeSystem.meet (fuel + 2) ⟨0⟩ ⟨1⟩ =
        some (some TypeError.Converge,
          ⟨⟨[[], [0]], [[1], []]⟩,
           [TypeNode.Value AbstractTypeValue.VBool,
            TypeNode.Use AbstractTypeUse.UFloat]⟩)) ∧
      ((((⟨⟨[[], [0]], [[1], []]⟩,
            [TypeNode.Value AbstractTypeValue.VBool,
             TypeNode.Use AbstractTypeUse.UFloat]⟩ :
           TypeChecker AbstractTypeValue AbstractTypeUse).new_val
          AbstractTypeValue.VBool).2.new_use AbstractTypeUse.UBool).2.flow
        LiteralTypeSystem.meet (fuel + 2) ⟨2⟩ ⟨3⟩ =
        some (none,
          ⟨⟨[[], [0], [], [2]], [[1], [], [3], []]⟩,
           [TypeNode.Value AbstractTypeValue.VBool,
            TypeNode.Use AbstractTypeUse.UFloat,
            TypeNode.Value AbstractTypeValue.VBool,
            TypeNode.Use AbstractTypeUse.UBool]⟩))) := by
  refine ⟨?_, ?_, ?_, ?_, ?_⟩
  · intro V U E tc meet fuel lhs rhs pairs g1 e h1 h2
    simp [TypeChecker.flow, TypeChecker.flowLoop, h1, h2]
  · intro V U E tc meet lhs₀ rhs₀ g lhs rhs pending pairs g1 e hsteps hadd hchk
    obtain ⟨fuel₀, hf⟩ := flowSteps_error_result tc.types meet g lhs rhs pending
      pairs g1 e hadd hchk tc.r [(lhs₀, rhs₀)] hsteps
    refine ⟨fuel₀, ?_⟩
    intro fuel hfuel
    unfold TypeChecker.flow
    rw [hf fuel hfuel]
    rfl
  · intro V U E tc meet fuel lhs rhs e tc' hflow
    unfold TypeChecker.flow at hflow
    rw [Option.map_eq_some'] at hflow
    obtain ⟨⟨oe, gf⟩, hloop, heq⟩ := hflow
    simp only [Prod.mk.injEq] at heq
    obtain ⟨hoe, htc⟩ := heq
    rw [hoe] at hloop
    obtain ⟨g', l, r, p', pairs, hsteps, hret, herr⟩ :=
      flowLoop_error_inv tc.types meet fuel tc.r [(lhs, rhs)] e gf hloop
    refine ⟨by rw [← htc], g', l, r, p', pairs, hsteps, ?_, herr⟩
    rw [← htc]
    exact hret
  · intro fuel
    show Option.map
        (fun res => (res.1,
          ({ r := res.2,
             types := [TypeNode.Value AbstractTypeValue.VBool,
                       TypeNode.Use AbstractTypeUse.UBool,
                       TypeNode.Value AbstractTypeValue.VFloat,
                       TypeNode.Use AbstractTypeUse.UFloat] } :
            TypeChecker AbstractTypeValue AbstractTypeUse)))
        (TypeChecker.flowLoop
          [TypeNode.Value AbstractTypeValue.VBool,
           TypeNode.Use AbstractTypeUse.UBool,
           TypeNode.Value AbstractTypeValue.VFloat,
           TypeNode.Use AbstractTypeUse.UFloat]
          cascadeMeet (fuel + 1 + 1)
          ⟨[[], [], [], []], [[], [], [], []]⟩ [(⟨0⟩, ⟨1⟩)]) =
      some (some TypeError.Converge,
        ⟨⟨[[], [0], [], [2]], [[1], [], [3], []]⟩,
         [TypeNode.Value AbstractTypeValue.VBool,
          TypeNode.Use AbstractTypeUse.UBool,
          TypeNode.Value AbstractTypeValue.VFloat,
          TypeNode.Use AbstractTypeUse.UFloat]⟩)
    rw [flowLoop_step_ok
      [TypeNode.Value AbstractTypeValue.VBool,
       TypeNode.Use AbstractTypeUse.UBool,
       TypeNode.Value AbstractTypeValue.VFloat,
       TypeNode.Use AbstractTypeUse.UFloat]
      cascadeMeet (fuel + 1) ⟨[[], [], [], []], [[], [], [], []]⟩ ⟨0⟩ ⟨1⟩ []
      [(0, 1)] ⟨[[], [0], [], []], [[1], [], [], []]⟩
      [(⟨0⟩, ⟨1⟩), (⟨2⟩, ⟨3⟩)] (by decide) rfl]
    show Option.map _
        (TypeChecker.flowLoop
          [TypeNode.Value AbstractTypeValue.VBool,
           TypeNode.Use AbstractTypeUse.UBool,
           TypeNode.Value AbstractTypeValue.VFloat,
           TypeNode.Use AbstractTypeUse.UFloat]
          cascadeMeet (fuel + 1)
          ⟨[[], [0], [], []], [[1], [], [], []]⟩
          [(⟨2⟩, ⟨3⟩), (⟨0⟩, ⟨1⟩)]) = _
    rw [flowLoop_step_error
      [TypeNode.Value AbstractTypeValue.VBool,
       TypeNode.Use AbstractTypeUse.UBool,
       TypeNode.Value AbstractTypeValue.VFloat,
       TypeNode.Use AbstractTypeUse.UFloat]
      cascadeMeet fuel ⟨[[], [0], [], []], [[1], [], [], []]⟩ ⟨2⟩ ⟨3⟩
      [(⟨0⟩, ⟨1⟩)] [(2, 3)] ⟨[[], [0], [], [2]], [[1], [], [3], []]⟩
      TypeError.Converge (by decide) rfl]
    rfl
  · intro fuel
    constructor
    · show Option.map
          (fun res => (res.1,
            ({ r := res.2,
               types := [TypeNode.Value AbstractTypeValue.VBool,
                         TypeNode.Use AbstractTypeUse.UFloat] } :
              TypeChecker AbstractTypeValue AbstractTypeUse)))
          (TypeChecker.flowLoop
            [TypeNode.Value AbstractTypeValue.VBool, TypeNode.Use AbstractTypeUse.UFloat]
            LiteralTypeSystem.meet (fuel + 1 + 1)
            ⟨[[], []], [[], []]⟩ [(⟨0⟩, ⟨1⟩)]) =
        some (some TypeError.Converge,
          ⟨⟨[[], [0]], [[1], []]⟩,
           [TypeNode.Value AbstractTypeValue.VBool,
            TypeNode.Use AbstractTypeUse.UFloat]⟩)
      rw [flowLoop_step_error
        [TypeNode.Value AbstractTypeValue.VBool, TypeNode.Use AbstractTypeUse.UFloat]
        LiteralTypeSystem.meet (fuel + 1) ⟨[[], []], [[], []]⟩ ⟨0⟩ ⟨1⟩ [] [(0, 1)]
        ⟨[[], [0]], [[1], []]⟩ TypeError.Converge (by decide) rfl]
      rfl
    · show Option.map
          (fun res => (res.1,
            ({ r := res.2,
               types := [TypeNode.Value AbstractTypeValue.VBool,
                         TypeNode.Use AbstractTypeUse.UFloat,
                         TypeNode.Value AbstractTypeValue.VBool,
                         TypeNode.Use AbstractTypeUse.UBool] } :
              TypeChecker AbstractTypeValue AbstractTypeUse)))
          (TypeChecker.flowLoop
            [TypeNode.Value AbstractTypeValue.VBool,
             TypeNode.Use AbstractTypeUse.UFloat,
             TypeNode.Value AbstractTypeValue.VBool,
             TypeNode.Use AbstractTypeUse.UBool]
            LiteralTypeSystem.meet (fuel + 1 + 1)
            ⟨[[], [0], [], []], [[1], [], [], []]⟩ [(⟨2⟩, ⟨3⟩)]) =
        some (none,
          ⟨⟨[[], [0], [], [2]], [[1], [], [3], []]⟩,
           [TypeNode.Value AbstractTypeValue.VBool,
            TypeNode.Use AbstractTypeUse.UFloat,
            TypeNode.Value AbstractTypeValue.VBool,
            TypeNode.Use AbstractTypeUse.UBool]⟩)
      rw [flowLoop_step_ok
        [TypeNode.Value AbstractTypeValue.VBool,
         TypeNode.Use AbstractTypeUse.UFloat,
         TypeNode.Value AbstractTypeValue.VBool,
         TypeNode.Use AbstractTypeUse.UBool]
        LiteralTypeSystem.meet (fuel + 1) ⟨[[], [0], [], []], [[1], [], [], []]⟩
        ⟨2⟩ ⟨3⟩ [] [(2, 3)]
        ⟨[[], [0], [], [2]], [[1], [], [3], []]⟩ [] (by decide) rfl]
      simp only [List.reverse_nil, List.nil_append]
      rw [flowLoop_nil]
      rfl

theorem flow_error_handling_witness :
    ∃ fuel₀ : Nat, ∀ fuel : Nat, fuel₀ ≤ fuel →
      (⟨⟨[[], [], [], []], [[], [], [], []]⟩,
        [TypeNode.Value AbstractTypeValue.VBool,
         TypeNode.Use AbstractTypeUse.UBool,
         TypeNode.Value AbstractTypeValue.VFloat,
         TypeNode.Use AbstractTypeUse.UFloat]⟩ :
          TypeChecker AbstractTypeValue AbstractTypeUse).flow
        cascadeMeet fuel ⟨0⟩ ⟨1⟩ =
      some (some TypeError.Converge,
        ⟨⟨[[], [0], [], [2]], [[1], [], [3], []]⟩,
         [TypeNode.Value AbstractTypeValue.VBool,
          TypeNode.Use AbstractTypeUse.UBool,
          TypeNode.Value AbstractTypeValue.VFloat,
          TypeNode.Use AbstractTypeUse.UFloat]⟩) :=
  flow_error_handling.2.1 AbstractTypeValue AbstractTypeUse TypeError
    ⟨⟨[[], [], [], []], [[], [], [], []]⟩,
     [TypeNode.Value AbstractTypeValue.VBool,
      TypeNode.Use AbstractTypeUse.UBool,
      TypeNode.Value AbstractTypeValue.VFloat,
      TypeNode.Use AbstractTypeUse.UFloat]⟩
    cascadeMeet ⟨0⟩ ⟨1⟩ ⟨[[], [0], [], []], [[1], [], [], []]⟩ ⟨2⟩ ⟨3⟩
    [(⟨0⟩, ⟨1⟩)] [(2, 3)] ⟨[[], [0], [], [2]], [[1], [], [3], []]⟩
    TypeError.Converge
    (@FlowSteps.step AbstractTypeValue AbstractTypeUse TypeError
      [TypeNode.Value AbstractTypeValue.VBool,
       TypeNode.Use AbstractTypeUse.UBool,
       TypeNode.Value AbstractTypeValue.VFloat,
       TypeNode.Use AbstractTypeUse.UFloat]
      cascadeMeet
      ⟨[[], [0], [], []], [[1], [], [], []]⟩
      [(⟨2⟩, ⟨3⟩), (⟨0⟩, ⟨1⟩)]
      ⟨[[], [], [], []], [[], [], [], []]⟩
      ⟨[[], [0], [], []], [[1], [], [], []]⟩
      ⟨0⟩ ⟨1⟩ [] [(0, 1)] [(⟨0⟩, ⟨1⟩), (⟨2⟩, ⟨3⟩)]
      (by decide) rfl FlowSteps.refl) (by decide) rfl

theorem mem_of_getD {α : Type} (l : List α) (i : Nat) (d v : α)
    (h : l.getD i d = v) (hv : v ≠ d) : v ∈ l := by
  rw [List.getD_eq_getElem?_getD] at h
  cases hi : l[i]? with
  | none =>
      rw [hi] at h
      exact absurd h.symm hv
  | some w =>
      rw [hi] at h
      simp only [Option.getD_some] at h
      exact h ▸ List.getElem?_mem hi

theorem checkPairs_congr {V U E : Type} (types : List (TypeNode V U))
    (m1 m2 : V → U → Except E (List (Value × Use)))
    (hagree : ∀ v u, TypeNode.Value v ∈ types → TypeNode.Use u ∈ types →
      m1 v u = m2 v u) :
    ∀ pairs, TypeChecker.checkPairs types m1 pairs =
      TypeChecker.checkPairs types m2 pairs := by
  intro pairs
  induction pairs with
  | nil => rfl
  | cons p rest ih =>
      obtain ⟨l, r⟩ := p
      simp only [TypeChecker.checkPairs]
      cases hl : types.getD l TypeNode.Var with
      | Var => exact ih
      | Use u => exact ih
      | Value v =>
          cases hr : types.getD r TypeNode.Var with
          | Var => exact ih
          | Value v' => exact ih
          | Use u =>
              have hvm : TypeNode.Value v ∈ types :=
                mem_of_getD types l TypeNode.Var (TypeNode.Value v) hl (by simp)
              have hum : TypeNode.Use u ∈ types :=
                mem_of_getD types r TypeNode.Var (TypeNode.Use u) hr (by simp)
              show (match m1 v u with
                | Except.error e => Except.error e
                | Except.ok new_edges =>
                    match TypeChecker.checkPairs types m1 rest with
                    | Except.error e => Except.error e
                    | Except.ok later => Except.ok (new_edges ++ later)) =
                (match m2 v u with
                | Except.error e => Except.error e
                | Except.ok new_edges =>
                    match TypeChecker.checkPairs types m2 rest with
                    | Except.error e => Except.error e
                    | Except.ok later => Except.ok (new_edges ++ later))
              rw [hagree v u hvm hum, ih]

theorem flowLoop_congr {V U E : Type} (types : List (TypeNode V U))
    (m1 m2 : V → U → Except E (List (Value × Use)))
    (hagree : ∀ v u, TypeNode.Value v ∈ types → TypeNode.Use u ∈ types →
      m1 v u = m2 v u) :
    ∀ (fuel : Nat) (g : ReachabilityGraph) (pending : List (Value × Use)),
      TypeChecker.flowLoop types m1 fuel g pending =
        TypeChecker.flowLoop types m2 fuel g pending := by
  intro fuel
  induction fuel with
  | zero => intro g pending; rfl
  | succ n ih =>
      intro g pending
      cases pending with
      | nil => rfl
      | cons p pending' =>
          obtain ⟨lhs, rhs⟩ := p
          simp only [TypeChecker.flowLoop]
          cases hedge : g.add_edge_mut lhs.id rhs.id with
          | none => rfl
          | some res =>
              obtain ⟨pairs, g1⟩ := res
              simp only
              rw [checkPairs_congr types m1 m2 hagree pairs.reverse]
              cases TypeChecker.checkPairs types m2 pairs.reverse with
              | error e => rfl
              | ok new_edges => exact ih g1 (new_edges.reverse ++ pending')

/-- **C4**: during a flow call the lattice meet is consulted only at
payload pairs stored under a `Value` tag on the left and a `Use` tag on the
right: two meet functions that agree on all such stored payload pairs make
every flow call on that checker behave identically, so a newly implied pair
that is Value-to-Value, Use-to-Use, or touches a Placeholder can never
influence the call through `meet`. -/
theorem meet_only_value_use :
    ∀ (V U E : Type) (tc : TypeChecker V U)
      (m1 m2 : V → U → Except E (List (Value × Use))),
      (∀ v u, TypeNode.Value v ∈ tc.types → TypeNode.Use u ∈ tc.types →
        m1 v u = m2 v u) →
      ∀ (fuel : Nat) (lhs : Value) (rhs : Use),
        tc.flow m1 fuel lhs rhs = tc.flow m2 fuel lhs rhs := by
  intro V U E tc m1 m2 hagree fuel lhs rhs
  unfold TypeChecker.flow
  rw [flowLoop_congr tc.types m1 m2 hagree fuel tc.r [(lhs, rhs)]]

theorem meet_only_value_use_witness :
    (⟨⟨[[], []], [[], []]⟩,
      [TypeNode.Value AbstractTypeValue.VBool,
       TypeNode.Use AbstractTypeUse.UBool]⟩ :
        TypeChecker AbstractTypeValue AbstractTypeUse).flow
      LiteralTypeSystem.meet 2 ⟨0⟩ ⟨1⟩ =
    (⟨⟨[[], []], [[], []]⟩,
      [TypeNode.Value AbstractTypeValue.VBool,
       TypeNode.Use AbstractTypeUse.UBool]⟩ :
        TypeChecker AbstractTypeValue AbstractTypeUse).flow
      (fun v u =>
        if v = AbstractTypeValue.VBool ∧ u = AbstractTypeUse.UBool then
          Except.ok []
        else Except.error TypeError.Converge) 2 ⟨0⟩ ⟨1⟩ := by
  refine meet_only_value_use AbstractTypeValue AbstractTypeUse TypeError _
    LiteralTypeSystem.meet _ ?_ 2 ⟨0⟩ ⟨1⟩
  intro v u hv hu
  cases v <;> cases u <;> simp_all [LiteralTypeSystem.meet]

/-- **C7**: asserting a Bool-tagged value into a Bool-tagged use under the
literal type system succeeds, and no cascading assertions happen: the only
newly implied pair of the single edge insertion is the requested one, the
matching-tag meet returns no follow-up assertions, and the final state
holds exactly that one edge. -/
theorem flow_bool_bool (fuel : Nat) :
    ReachabilityGraph.add_edge_mut ⟨[[], []], [[], []]⟩ 0 1 =
      some ([(0, 1)], ⟨[[], [0]], [[1], []]⟩) ∧
    LiteralTypeSystem.meet AbstractTypeValue.VBool AbstractTypeUse.UBool =
      Except.ok [] ∧
    (((TypeChecker.new : TypeChecker AbstractTypeValue AbstractTypeUse).new_val
        AbstractTypeValue.VBool).2.new_use AbstractTypeUse.UBool).2.flow
      LiteralTypeSystem.meet (fuel + 2) ⟨0⟩ ⟨1⟩ =
      some (none,
        ⟨⟨[[], [0]], [[1], []]⟩,
         [TypeNode.Value AbstractTypeValue.VBool,
          TypeNode.Use AbstractTypeUse.UBool]⟩) := by
  refine ⟨by decide, rfl, ?_⟩
  show Option.map
      (fun res => (res.1,
        ({ r := res.2,
           types := [TypeNode.Value AbstractTypeValue.VBool,
                     TypeNode.Use AbstractTypeUse.UBool] } :
          TypeChecker AbstractTypeValue AbstractTypeUse)))
      (TypeChecker.flowLoop
        [TypeNode.Value AbstractTypeValue.VBool, TypeNode.Use AbstractTypeUse.UBool]
        LiteralTypeSystem.meet (fuel + 1 + 1)
        ⟨[[], []], [[], []]⟩ [(⟨0⟩, ⟨1⟩)]) =
    some (none,
      ⟨⟨[[], [0]], [[1], []]⟩,
       [TypeNode.Value AbstractTypeValue.VBool,
        TypeNode.Use AbstractTypeUse.UBool]⟩)
  rw [flowLoop_step_ok
    [TypeNode.Value AbstractTypeValue.VBool, TypeNode.Use AbstractTypeUse.UBool]
    LiteralTypeSystem.meet (fuel + 1) ⟨[[], []], [[], []]⟩ ⟨0⟩ ⟨1⟩ [] [(0, 1)]
    ⟨[[], [0]], [[1], []]⟩ [] (by decide) rfl]
  simp only [List.reverse_nil, List.nil_append]
  rw [flowLoop_nil]
  rfl

/-- **C8**: the solver is deterministic: two runs of the same operation
sequence from a fresh checker with the same lattice produce identical
results — the same per-assertion outcome trace and the same final checker
state. -/
theorem deterministic (V U E : Type)
    (meet : V → U → Except E (List (Value × Use))) (ops : List (TCOp V U))
    (r1 r2 : Option (List (Option E) × TypeChecker V U))
    (h1 : runSessionTrace meet ops TypeChecker.new = r1)
    (h2 : runSessionTrace meet ops TypeChecker.new = r2) : r1 = r2 := by
  rw [← h1, ← h2]

theorem deterministic_witness :
    (some ([none],
      (⟨⟨[[], [0]], [[1], []]⟩,
        [TypeNode.Value AbstractTypeValue.VBool,
         TypeNode.Use AbstractTypeUse.UBool]⟩ :
          TypeChecker AbstractTypeValue AbstractTypeUse)) :
      Option (List (Option TypeError) × TypeChecker AbstractTypeValue AbstractTypeUse)) =
    some ([none],
      ⟨⟨[[], [0]], [[1], []]⟩,
       [TypeNode.Value AbstractTypeValue.VBool,
        TypeNode.Use AbstractTypeUse.UBool]⟩) :=
  deterministic AbstractTypeValue AbstractTypeUse TypeError LiteralTypeSystem.meet
    [TCOp.newVal AbstractTypeValue.VBool, TCOp.newUse AbstractTypeUse.UBool,
     TCOp.flow 2 ⟨0⟩ ⟨1⟩] _ _ (by decide) (by decide)

end Typical
